import Mathlib

/-
Verification development for the spectrum-console sequence unroller
(console/pulseq_interpreter/sequence_provider.py) and the acquisition
control post-processing (console/spcm_control/acquisition_control.py).

The Python source operates on numpy int16 arrays; machine integers are
modelled as Lean integers together with explicit wrap-around modulo 2^16,
and the uint16 bit view of an int16 value is a natural number below 2^16.
Floating point arithmetic is modelled by real numbers; numpy casts from
float to int16 (astype, np.int16) truncate towards zero and then wrap.
-/

namespace SpectrumConsole

/-- INT16_MAX from numpy (np.iinfo(np.int16).max). -/
def INT16_MAX : ℤ := 32767

/-- Wrap an integer to the int16 range, as numpy does on overflow of
int16 arithmetic and on casts into an int16 array. -/
def toInt16 (z : ℤ) : ℤ := (z + 32768) % 65536 - 32768

/-- View of an int16 value as its uint16 bit pattern
(the numpy idiom arr.view(np.uint16), or astype(np.uint16)). -/
def bitsOfInt16 (v : ℤ) : ℕ := (v % 65536).toNat

/-- Reinterpret a 16-bit pattern as an int16 value (assignment of a
uint16 valued expression back into an int16 numpy array). -/
def int16OfBits (u : ℕ) : ℤ := toInt16 u

/-- Truncation towards zero, the behaviour of the Python int() builtin
and of numpy float-to-integer casts. -/
noncomputable def truncToZero (x : ℝ) : ℤ := if 0 ≤ x then ⌊x⌋ else ⌈x⌉

/-- Python int() of a (nonnegative) float, used for all sample-count
conversions in the unroller. -/
noncomputable def pyInt (x : ℝ) : ℕ := (truncToZero x).toNat

/-- Cast of a float to int16 (np.int16 or astype(np.int16)): truncate
towards zero, then wrap to the int16 range. -/
noncomputable def int16OfFloat (x : ℝ) : ℤ := toInt16 (truncToZero x)

/-- Python round(), which rounds half to even (banker's rounding).
Used for the per-block sample count round(block_duration / dwell). -/
noncomputable def pyRound (x : ℝ) : ℤ :=
  if x - ⌊x⌋ < 1/2 then ⌊x⌋
  else if 1/2 < x - ⌊x⌋ then ⌊x⌋ + 1
  else if 2 ∣ ⌊x⌋ then ⌊x⌋ else ⌊x⌋ + 1

/-- Digital packing of one gradient sample, from unroll_sequence:
seq[i::4] = seq[i::4].view(np.uint16) >> 1 | (side << 15).
The side value is an int16 from the side array (0 or 1 in practice);
shifting it left by 15 inside int16 keeps only bit 15, which is the bit
pattern of side * 32768 reduced mod 2^16. -/
def packSample (v side : ℤ) : ℤ :=
  int16OfBits ((bitsOfInt16 v >>> 1) ||| bitsOfInt16 (side * 32768))

/-- Left shift by one of an int16 numpy value (seq << 1): the bit
pattern is shifted and wrapped to 16 bits. -/
def shlInt16 (v : ℤ) : ℤ := int16OfBits ((bitsOfInt16 v <<< 1) % 65536)

/-- Arithmetic (sign preserving) right shift by one of an int16 numpy
value (seq >> 1 on an int16 array), i.e. floor division by two. -/
def ashrInt16 (v : ℤ) : ℤ := v / 2

/-- Map over a list with the absolute element index available, starting
from a given index; models elementwise operations on numpy array views. -/
def mapIdxFrom (f : ℕ → ℤ → ℤ) : ℕ → List ℤ → List ℤ
  | _, [] => []
  | k, x :: xs => f k x :: mapIdxFrom f (k + 1) xs

/-- Slice assignment arr[lo:hi] = v of a constant into a numpy array
(out-of-range parts of the slice are clipped, as in Python). -/
def setRange (l : List ℤ) (lo hi : ℕ) (v : ℤ) : List ℤ :=
  mapIdxFrom (fun i x => if lo ≤ i ∧ i < hi then v else x) 0 l

/-- Slice assignment arr[lo:lo+len] = w where w is a computed waveform
given by a function of the local sample index. -/
def writeRange (l : List ℤ) (lo len : ℕ) (f : ℕ → ℤ) : List ℤ :=
  mapIdxFrom (fun i x => if lo ≤ i ∧ i < lo + len then f (i - lo) else x) 0 l

/-- In-place addition arr[lo:lo+|g|] += g on an int16 numpy array; the
addition wraps around in int16. -/
def addRange (l : List ℤ) (lo : ℕ) (g : List ℤ) : List ℤ :=
  mapIdxFrom
    (fun i x => if lo ≤ i ∧ i < lo + g.length then toInt16 (x + g.getD (i - lo) 0) else x)
    0 l

/-- Interleave four equally long channel arrays into the Fortran-order
replay array data = [ch0_0, ch1_0, ch2_0, ch3_0, ch0_1, ...]; the
strided views _seq[k][c::4] of the source correspond exactly to the four
channel arrays. -/
def interleave4 : List ℤ → List ℤ → List ℤ → List ℤ → List ℤ
  | a :: as, b :: bs, c :: cs, d :: ds => a :: b :: c :: d :: interleave4 as bs cs ds
  | _, _, _, _ => []

/-- Lexicographic strict order on complex numbers: real parts first,
then imaginary parts.  This is how numpy orders complex values in
comparisons and in maximum reductions. -/
def lexLt (a b : ℂ) : Prop := a.re < b.re ∨ (a.re = b.re ∧ a.im < b.im)

open Classical in
/-- Binary lexicographic maximum of two complex numbers (np.maximum on
complex input). -/
noncomputable def cmax (a b : ℂ) : ℂ := if lexLt a b then b else a

/-- Maximum reduction np.amax over a complex array: the lexicographically
greatest element (numpy raises on an empty array; the empty case is
mapped to zero and is never reached from the unroller). -/
noncomputable def lexAmax : List ℂ → ℂ
  | [] => 0
  | h :: t => t.foldl cmax h

/-- Maximum reduction np.amax over a real array (empty case mapped to
zero, never reached from the unroller). -/
noncomputable def amaxR : List ℝ → ℝ
  | [] => 0
  | h :: t => t.foldl max h

/-- Elementwise comparison z > 0 of a complex numpy array against zero:
numpy compares complex values lexicographically (real part first, then
imaginary part). -/
def complexGtZero (z : ℂ) : Prop := 0 < z.re ∨ (z.re = 0 ∧ 0 < z.im)

/-- Values of np.linspace(a, b, num, dtype=np.int16): numpy computes the
grid in float64 and casts each value to int16. -/
noncomputable def linspaceInt (a b : ℤ) (num : ℕ) : List ℤ :=
  if num = 0 then []
  else if num = 1 then [a]
  else (List.range num).map
    (fun k => int16OfFloat ((a : ℝ) + k * (((b : ℝ) - (a : ℝ)) / ((num : ℝ) - 1))))

/-- Real valued np.linspace(a, b, num) grid. -/
noncomputable def linspaceR (a b : ℝ) (num : ℕ) : List ℝ :=
  if num = 0 then []
  else if num = 1 then [a]
  else (List.range num).map (fun k => a + k * ((b - a) / ((num : ℝ) - 1)))

/-- Piecewise linear interpolation np.interp through the sample points
pts (pairs of abscissa and value, abscissas increasing); values are
clamped to the first and last ordinate outside the sampled range. -/
noncomputable def interpPts : List (ℝ × ℝ) → ℝ → ℝ
  | [], _ => 0
  | [p], _ => p.2
  | p :: q :: rest, x =>
    if x ≤ q.1 then
      if x < p.1 then p.2
      else p.2 + (q.2 - p.2) * (x - p.1) / (q.1 - p.1)
    else interpPts (q :: rest) x

/-- Truth of an Except value being the ok case. -/
def isOkE {ε α : Type} : Except ε α → Bool
  | .ok _ => true
  | .error _ => false

/-- Payload of an Except value in the ok case, with a default. -/
def okValue {ε α : Type} (d : α) : Except ε α → α
  | .ok a => a
  | .error _ => d

/-- Triple of per-axis values (the Dimensions dataclass with fields
x, y, z used for fov scaling and gradient offsets). -/
structure Dimensions where
  x : ℝ
  y : ℝ
  z : ℝ
deriving Inhabited

/-- Pypulseq RF block event, with the fields read by calculate_rf.
The envelope signal is a complex array at the native raster. -/
structure RfEvent where
  delay : ℝ
  deadTime : ℝ
  ringdownTime : ℝ
  shapeDur : ℝ
  phaseOffset : ℝ
  freqOffset : ℝ
  signal : List ℂ
deriving Inhabited

/-- Pypulseq gradient block event: a trapezoid (type trap) or an
arbitrary waveform (type grad).  The channel is stored as the index
computed by the source, index of x, y, z in that order (0, 1 or 2). -/
inductive GradEvent where
  | trap (channel : ℕ) (delay riseTime flatTime fallTime amplitude : ℝ)
  | arb (channel : ℕ) (delay shapeDur : ℝ) (tt : List ℝ) (waveform : List ℝ)
deriving Inhabited

/-- Channel designation index of a gradient event (0 for x, 1 for y,
2 for z). -/
def GradEvent.channel : GradEvent → ℕ
  | .trap c _ _ _ _ _ => c
  | .arb c _ _ _ _ => c

/-- Delay field of a gradient event. -/
def GradEvent.delay : GradEvent → ℝ
  | .trap _ d _ _ _ _ => d
  | .arb _ d _ _ _ => d

/-- Predicate that an arbitrary gradient event has a nonempty waveform
(np.amax raises on an empty array, so the source presumes this). -/
def GradEvent.waveNonempty : GradEvent → Prop
  | .trap _ _ _ _ _ _ => True
  | .arb _ _ _ _ wf => wf ≠ []

/-- Pypulseq ADC block event fields read by add_adc_gate.  The dwell
here is the ADC dwell time, distinct from the card dwell time. -/
structure AdcEvent where
  delay : ℝ
  deadTime : ℝ
  numSamples : ℕ
  dwell : ℝ
deriving Inhabited

/-- One sequence block: a duration and optional RF, gradient (per axis)
and ADC events, as obtained from get_block. -/
structure Block where
  blockDuration : ℝ
  rf : Option RfEvent
  gx : Option GradEvent
  gy : Option GradEvent
  gz : Option GradEvent
  adc : Option AdcEvent
deriving Inhabited

/-- Configuration of the SequenceProvider: calibration values from the
constructor, the system timing options, the loaded block list, and the
resample primitive.  The calibration lists gpa_gain and
gradient_efficiency are modelled as total index functions (the source
indexes them with the channel index plus one).  The field resample
models scipy.signal.resample, an external band-limited resampler that
is opaque to this development except for its output length. -/
structure SequenceProvider where
  gradientEfficiency : ℕ → ℝ
  gpaGain : ℕ → ℝ
  outputLimits : List ℝ
  spcmDwellTime : ℝ
  rfToMvolt : ℝ
  rfDeadTime : ℝ
  rfRingdownTime : ℝ
  resample : List ℂ → ℕ → List ℂ
  resample_length : ∀ l n, (resample l n).length = n
  blocks : List Block
  seqDuration : ℝ

/-- Card sample frequency, the reciprocal of the dwell time. -/
noncomputable def spcmFreq (P : SequenceProvider) : ℝ := 1 / P.spcmDwellTime

/-- Per-channel output limit in mV, output_limits[i]. -/
def limit (P : SequenceProvider) (i : ℕ) : ℝ := P.outputLimits.getD i 0

/-- Mutable state of the provider between calls: the larmor frequency
attribute and the running sample counter. -/
structure ProviderState where
  larmorFreq : ℝ
  sampleCount : ℕ
deriving Inhabited

/-- Error cases raised by the unroller (ValueError and IndexError in
the source, distinguished here by site). -/
inductive UnrollError where
  | larmorFrequency
  | noBlocks
  | outputLimitsMissing
  | offsetX
  | offsetY
  | offsetZ
  | rfAmplitude
  | rfIndex
  | gradAmplitude (channel : ℕ)
  | gradIndex (channel : ℕ)
deriving DecidableEq, Inhabited

/-- Number of card samples of one block,
round(block.block_duration / spcm_dwell_time). -/
noncomputable def nSamples (P : SequenceProvider) (b : Block) : ℕ :=
  (pyRound (b.blockDuration / P.spcmDwellTime)).toNat

/-- Delay of an RF event in samples,
int(max(system.rf_dead_time, rf.dead_time, rf.delay) * spcm_freq). -/
noncomputable def rfSamplesDelay (P : SequenceProvider) (rf : RfEvent) : ℕ :=
  pyInt (max (max P.rfDeadTime rf.deadTime) rf.delay * spcmFreq P)

/-- Number of shape samples of an RF event,
int(rf.shape_dur * spcm_freq). -/
noncomputable def rfNumSamples (P : SequenceProvider) (rf : RfEvent) : ℕ :=
  pyInt (rf.shapeDur * spcmFreq P)

/-- Ringdown length of an RF event in samples,
int(max(system.rf_ringdown_time, rf.ringdown_time) * spcm_freq). -/
noncomputable def rfNumSamplesRingdown (P : SequenceProvider) (rf : RfEvent) : ℕ :=
  pyInt (max P.rfRingdownTime rf.ringdownTime * spcmFreq P)

/-- RF scaling factor, b1_scaling * rf_to_mvolt / output_limits[0]. -/
noncomputable def rfScaling (P : SequenceProvider) (b1Scaling : ℝ) : ℝ :=
  b1Scaling * P.rfToMvolt / limit P 0

/-- Scaled complex envelope before quantisation,
block.signal * exp(1j * block.phase_offset) * rf_scaling. -/
noncomputable def rfEnvelopeScaled (P : SequenceProvider) (rf : RfEvent) (b1Scaling : ℝ) :
    List ℂ :=
  rf.signal.map
    (fun s => s * Complex.exp (Complex.I * (rf.phaseOffset : ℂ)) * (rfScaling P b1Scaling : ℂ))

/-- Resampled scaled envelope: the scaled envelope is brought to the
int16 scale (multiplied by INT16_MAX) and resampled to the number of
shape samples. -/
noncomputable def rfResampledEnvelope (P : SequenceProvider) (rf : RfEvent) (b1Scaling : ℝ) :
    List ℂ :=
  P.resample ((rfEnvelopeScaled P rf b1Scaling).map (fun z => z * (INT16_MAX : ℂ)))
    (rfNumSamples P rf)

/-- Carrier phase offset of an RF event: the elapsed time in seconds,
(sample_count + samples_delay - num_samples_rf_start) * dwell. -/
noncomputable def carrierPhaseOffset (P : SequenceProvider) (rf : RfEvent)
    (sampleCount rfStart : ℕ) : ℝ :=
  (((sampleCount + rfSamplesDelay P rf : ℕ) : ℤ) - (rfStart : ℤ)) * P.spcmDwellTime

/-- Carrier wave of the RF event at a local sample index,
exp(2j*pi*((larmor_freq + freq_offset) * carrier_time + carrier_phase_offset)). -/
noncomputable def rfCarrier (P : SequenceProvider) (larmorFreq : ℝ) (rf : RfEvent)
    (cpo : ℝ) (m : ℕ) : ℂ :=
  Complex.exp (2 * (Real.pi : ℂ) * Complex.I *
    (((larmorFreq + rf.freqOffset) * (m * P.spcmDwellTime) + cpo : ℝ) : ℂ))

/-- Unrolled RF sample written at a local shape index: the real part of
resampled envelope times carrier, cast to int16. -/
noncomputable def rfSampleValue (P : SequenceProvider) (larmorFreq : ℝ) (rf : RfEvent)
    (b1Scaling : ℝ) (sampleCount rfStart : ℕ) (m : ℕ) : ℤ :=
  int16OfFloat
    (((rfResampledEnvelope P rf b1Scaling).getD m 0 *
      rfCarrier P larmorFreq rf (carrierPhaseOffset P rf sampleCount rfStart) m).re)

open Classical in
/-- Model of SequenceProvider.calculate_rf.  Computes the delay, the
unblanking window, checks the scaled envelope amplitude (np.abs of
np.amax of the complex envelope), resamples, and writes the real part
of envelope times carrier into the RF channel view.  Returns the
updated RF channel and unblanking arrays. -/
noncomputable def calculate_rf (P : SequenceProvider) (larmorFreq : ℝ) (sampleCount : ℕ)
    (rf : RfEvent) (unrollArr : List ℤ) (b1Scaling : ℝ) (unblanking : List ℤ)
    (numSamplesRfStart : ℕ) : Except UnrollError (List ℤ × List ℤ) :=
  let samplesDelay := rfSamplesDelay P rf
  let numSamples := rfNumSamples P rf
  let unblanking2 :=
    setRange unblanking samplesDelay
      (unblanking.length - (rfNumSamplesRingdown P rf + 1)) 1
  if 1 < Complex.abs (lexAmax (rfEnvelopeScaled P rf b1Scaling)) then
    .error .rfAmplitude
  else if unrollArr.length < samplesDelay + numSamples then
    .error .rfIndex
  else
    .ok (writeRange unrollArr samplesDelay numSamples
      (rfSampleValue P larmorFreq rf b1Scaling sampleCount numSamplesRfStart),
      unblanking2)

open Classical in
/-- Model of SequenceProvider.add_adc_gate.  Sets the gate window to one
and overwrites the reference array with one wherever the complex
reference signal exp(2j*pi*(larmor_freq*ref_time + offset)) compares
greater than zero (numpy compares complex values lexicographically);
offset is sample_count * dwell, not multiplied by the larmor frequency. -/
noncomputable def add_adc_gate (P : SequenceProvider) (larmorFreq : ℝ) (sampleCount : ℕ)
    (adc : AdcEvent) (gate clkRef : List ℤ) : List ℤ × List ℤ :=
  let delay := max (pyInt (adc.delay * spcmFreq P)) (pyInt (adc.deadTime * spcmFreq P))
  let adcLen := pyInt ((adc.numSamples : ℝ) * adc.dwell * spcmFreq P)
  let gate2 := setRange gate delay (delay + adcLen) 1
  let offset := (sampleCount : ℝ) * P.spcmDwellTime
  let clkRef2 :=
    mapIdxFrom
      (fun m x =>
        if complexGtZero (Complex.exp (2 * (Real.pi : ℂ) * Complex.I *
            ((larmorFreq * (m * P.spcmDwellTime) + offset : ℝ) : ℂ))) then 1 else x)
      0 clkRef
  (gate2, clkRef2)

/-- Channel slot index of a gradient event, index(channel) + 1. -/
def gradIdx (g : GradEvent) : ℕ := g.channel + 1

/-- Gradient waveform scaling,
fov_scaling / (42.58e3 * gpa_gain[idx] * gradient_efficiency[idx]). -/
noncomputable def gradScaling (P : SequenceProvider) (g : GradEvent) (fovScaling : ℝ) : ℝ :=
  fovScaling / (42.58e3 * P.gpaGain (gradIdx g) * P.gradientEfficiency (gradIdx g))

/-- Gradient offset in mV already present in the channel slot,
unroll_arr[0] / INT16_MAX * output_limits[idx]. -/
noncomputable def gradOffsetMv (P : SequenceProvider) (g : GradEvent) (unrollArr : List ℤ) :
    ℝ :=
  (unrollArr.getD 0 0 : ℝ) / (INT16_MAX : ℝ) * limit P (gradIdx g)

/-- Value whose maximum the amplitude check of calculate_gradient
inspects: np.amax(waveform * scaling) for an arbitrary gradient, and
the scaled flat amplitude for a trapezoid (np.amax of a scalar). -/
noncomputable def gradScaledPeak (P : SequenceProvider) (g : GradEvent) (fovScaling : ℝ) :
    ℝ :=
  match g with
  | .trap _ _ _ _ _ amplitude => amplitude * gradScaling P g fovScaling
  | .arb _ _ _ _ wf => amaxR (wf.map (fun w => w * gradScaling P g fovScaling))

open Classical in
/-- Model of SequenceProvider.calculate_gradient.  Computes the scaled
waveform (trapezoid from rise, flat and fall pieces, or interpolated
arbitrary waveform), checks the signed maximum plus offset against the
channel output limit, and adds the int16 waveform into the channel view. -/
noncomputable def calculate_gradient (P : SequenceProvider) (g : GradEvent)
    (unrollArr : List ℤ) (fovScaling : ℝ) : Except UnrollError (List ℤ) :=
  let samplesDelay := pyInt (g.delay * spcmFreq P)
  let idx := gradIdx g
  let offset := gradOffsetMv P g unrollArr
  match g with
  | .trap c _ riseTime flatTime fallTime _ =>
    if limit P idx < gradScaledPeak P g fovScaling + offset then
      .error (.gradAmplitude c)
    else
      let flatAmp := int16OfFloat (gradScaledPeak P g fovScaling * (INT16_MAX : ℝ) / limit P idx)
      let gradient :=
        linspaceInt 0 flatAmp (pyInt (riseTime / P.spcmDwellTime)) ++
        List.replicate (pyInt (flatTime / P.spcmDwellTime)) flatAmp ++
        linspaceInt flatAmp 0 (pyInt (fallTime / P.spcmDwellTime))
      if unrollArr.length < samplesDelay + gradient.length then
        .error (.gradIndex c)
      else
        .ok (addRange unrollArr samplesDelay gradient)
  | .arb c _ shapeDur tt wf =>
    if limit P idx < gradScaledPeak P g fovScaling + offset then
      .error (.gradAmplitude c)
    else
      let wf2 := wf.map (fun w => w * gradScaling P g fovScaling * ((INT16_MAX : ℝ) / limit P idx))
      let xs := linspaceR (tt.headD 0) (tt.getLastD 0) (pyInt (shapeDur / P.spcmDwellTime))
      let gradient := xs.map (fun x => int16OfFloat (interpPts (tt.zip wf2) x))
      if unrollArr.length < samplesDelay + gradient.length then
        .error (.gradIndex c)
      else
        .ok (addRange unrollArr samplesDelay gradient)

open Classical in
/-- Model of SequenceProvider._check_offsets: requires output limits to
be present and each gradient offset to be within the per-channel limit
in absolute value. -/
noncomputable def check_offsets (P : SequenceProvider) (gradOffset : Dimensions) :
    Except UnrollError Unit :=
  if P.outputLimits = [] then .error .outputLimitsMissing
  else if limit P 1 < |gradOffset.x| then .error .offsetX
  else if limit P 2 < |gradOffset.y| then .error .offsetY
  else if limit P 3 < |gradOffset.z| then .error .offsetZ
  else .ok ()

/-- DC offset value added into a gradient channel slot,
np.int16((offset / output_limit) * INT16_MAX). -/
noncomputable def gradOffsetValue (offset outLimit : ℝ) : ℤ :=
  int16OfFloat (offset / outLimit * (INT16_MAX : ℝ))

open Classical in
/-- Per-channel gradient DC offset application from the unroll loop:
the offset is added (with int16 wrap-around) into every sample of the
channel view, but only when the offset is strictly positive. -/
noncomputable def applyGradOffset (l : List ℤ) (offset outLimit : ℝ) : List ℤ :=
  if 0 < offset then l.map (fun v => toInt16 (v + gradOffsetValue offset outLimit)) else l

/-- Accumulated state of the unroll loop: the per-block arrays built so
far (the local lists _seq, _adc, _unblanking, _ref of unroll_sequence),
the running sample counter, the ADC event counter and the position of
the first RF event. -/
structure BlockAcc where
  seqBlocks : List (List ℤ)
  adcBlocks : List (List ℤ)
  unblankBlocks : List (List ℤ)
  refBlocks : List (List ℤ)
  sampleCount : ℕ
  adcCount : ℕ
  rfStartSamplePos : Option ℕ
deriving Inhabited

/-- Gradient handling of one optional gradient event of a block. -/
noncomputable def gradStep (P : SequenceProvider) (g : Option GradEvent)
    (arr : List ℤ) (fovScaling : ℝ) : Except UnrollError (List ℤ) :=
  match g with
  | some ev => calculate_gradient P ev arr fovScaling
  | none => .ok arr

open Classical in
/-- RF handling of one block of the unroll loop: if an RF event with a
nonempty envelope is present, remember the position of the first RF
event and run calculate_rf on fresh channel and unblanking views. -/
noncomputable def rfStepF (P : SequenceProvider) (larmorFreq b1Scaling : ℝ)
    (acc : BlockAcc) (n : ℕ) (orf : Option RfEvent) :
    Except UnrollError (List ℤ × List ℤ × Option ℕ) :=
  match orf with
  | some rf =>
    if rf.signal = [] then .ok (List.replicate n 0, List.replicate n 0, acc.rfStartSamplePos)
    else
      let rs := acc.rfStartSamplePos.getD acc.sampleCount
      match calculate_rf P larmorFreq acc.sampleCount rf (List.replicate n 0) b1Scaling
          (List.replicate n 0) rs with
      | .error e => .error e
      | .ok pr => .ok (pr.1, pr.2, some rs)
  | none => .ok (List.replicate n 0, List.replicate n 0, acc.rfStartSamplePos)

/-- ADC handling of one block of the unroll loop: fill the gate and
reference side arrays and count the event. -/
noncomputable def adcStepF (P : SequenceProvider) (larmorFreq : ℝ) (sampleCount n : ℕ)
    (oadc : Option AdcEvent) : List ℤ × List ℤ × ℕ :=
  match oadc with
  | some adc =>
    let p := add_adc_gate P larmorFreq sampleCount adc (List.replicate n 0)
      (List.replicate n 0)
    (p.1, p.2, 1)
  | none => (List.replicate n 0, List.replicate n 0, 0)

open Classical in
/-- One iteration of the unroll loop of unroll_sequence: allocate the
four channel views and side arrays of the block, apply the gradient DC
offsets, process the RF, ADC and gradient events, pack the digital side
arrays into bit 15 of the gradient channels, and advance the sample
counter. -/
noncomputable def processBlock (P : SequenceProvider) (larmorFreq b1Scaling : ℝ)
    (fovScaling gradOffset : Dimensions) (acc : BlockAcc) (b : Block) :
    Except UnrollError BlockAcc :=
  let n := nSamples P b
  let ch1 := applyGradOffset (List.replicate n 0) gradOffset.x (limit P 1)
  let ch2 := applyGradOffset (List.replicate n 0) gradOffset.y (limit P 2)
  let ch3 := applyGradOffset (List.replicate n 0) gradOffset.z (limit P 3)
  match rfStepF P larmorFreq b1Scaling acc n b.rf with
  | .error e => .error e
  | .ok (ch0, unblankA, rfStart) =>
    let adcStep : List ℤ × List ℤ × ℕ :=
      adcStepF P larmorFreq acc.sampleCount n b.adc
    match gradStep P b.gx ch1 fovScaling.x with
    | .error e => .error e
    | .ok ch1g =>
      match gradStep P b.gy ch2 fovScaling.y with
      | .error e => .error e
      | .ok ch2g =>
        match gradStep P b.gz ch3 fovScaling.z with
        | .error e => .error e
        | .ok ch3g =>
          .ok { seqBlocks := acc.seqBlocks ++
                  [interleave4 ch0
                    (List.zipWith packSample ch1g adcStep.1)
                    (List.zipWith packSample ch2g adcStep.2.1)
                    (List.zipWith packSample ch3g unblankA)],
                adcBlocks := acc.adcBlocks ++ [adcStep.1],
                unblankBlocks := acc.unblankBlocks ++ [unblankA],
                refBlocks := acc.refBlocks ++ [adcStep.2.1],
                sampleCount := acc.sampleCount + n,
                adcCount := acc.adcCount + adcStep.2.2,
                rfStartSamplePos := rfStart }

/-- The unroll loop over the block list, with the early exit of a raised
exception: on an error the arrays of the failing block are discarded and
the sample counter holds the count before the failing block. -/
noncomputable def processBlocks (P : SequenceProvider) (larmorFreq b1Scaling : ℝ)
    (fovScaling gradOffset : Dimensions) :
    BlockAcc → List Block → BlockAcc × Option UnrollError
  | acc, [] => (acc, none)
  | acc, b :: bs =>
    match processBlock P larmorFreq b1Scaling fovScaling gradOffset acc b with
    | .error e => (acc, some e)
    | .ok acc2 => processBlocks P larmorFreq b1Scaling fovScaling gradOffset acc2 bs

/-- Result record of unroll_sequence (the UnrolledSequence dataclass). -/
structure UnrolledSequence where
  seq : List (List ℤ)
  adc_gate : List (List ℤ)
  rf_unblanking : List (List ℤ)
  sample_count : ℕ
  gpa_gain : ℕ → ℝ
  gradient_efficiency : ℕ → ℝ
  rf_to_mvolt : ℝ
  dwell_time : ℝ
  larmor_frequency : ℝ
  duration : ℝ
  adc_count : ℕ
deriving Inhabited

open Classical in
/-- Model of SequenceProvider.unroll_sequence.  Checks the larmor
frequency, assigns it to the provider state, checks for block events and
gradient offsets, resets the sample counter to zero, runs the unroll
loop and builds the UnrolledSequence record.  The returned pair carries
the provider state after the call together with the result. -/
noncomputable def unroll_sequence (P : SequenceProvider) (st : ProviderState)
    (larmorFreq : ℝ) (b1Scaling : ℝ) (fovScaling gradOffset : Dimensions) :
    ProviderState × Except UnrollError UnrolledSequence :=
  if 10e6 < larmorFreq then (st, .error .larmorFrequency)
  else
    let st1 : ProviderState := { st with larmorFreq := larmorFreq }
    if P.blocks.length = 0 then (st1, .error .noBlocks)
    else
      match check_offsets P gradOffset with
      | .error e => (st1, .error e)
      | .ok _ =>
        let acc0 : BlockAcc :=
          { seqBlocks := [], adcBlocks := [], unblankBlocks := [], refBlocks := [],
            sampleCount := 0, adcCount := 0, rfStartSamplePos := none }
        match processBlocks P larmorFreq b1Scaling fovScaling gradOffset acc0 P.blocks with
        | (acc, some e) => ({ st1 with sampleCount := acc.sampleCount }, .error e)
        | (acc, none) =>
          ({ st1 with sampleCount := acc.sampleCount },
           .ok { seq := acc.seqBlocks,
                 adc_gate := acc.adcBlocks,
                 rf_unblanking := acc.unblankBlocks,
                 sample_count := acc.sampleCount,
                 gpa_gain := P.gpaGain,
                 gradient_efficiency := P.gradientEfficiency,
                 rf_to_mvolt := P.rfToMvolt,
                 dwell_time := P.spcmDwellTime,
                 larmor_frequency := larmorFreq,
                 duration := P.seqDuration,
                 adc_count := acc.adcCount })

/-- Error raised by the post-run validation of AcquisitionControl.run. -/
inductive RunError where
  | missingAverage
deriving DecidableEq, Inhabited

/-- Post-averaging validation condition of AcquisitionControl.run:
all(gate.shape[0] == num_averages for gate in self._raw).  A bucket of
the raw data list is modelled by its list of average rows, so shape[0]
is the list length. -/
def runPostCheck {α : Type} (raw : List (List α)) (numAverages : ℕ) : Bool :=
  raw.all (fun gate => gate.length == numAverages)

/-- Tail of AcquisitionControl.run: raise MissingAverage when the
post-check fails, otherwise return the accumulated raw buckets (as part
of the AcquisitionData record). -/
def runValidate {α : Type} (raw : List (List α)) (numAverages : ℕ) :
    Except RunError (List (List α)) :=
  if runPostCheck raw numAverages then .ok raw else .error .missingAverage

/-- Readout length of a per-gate raw array of shape [n_coils, n_ro]:
data.shape[-1], the common length of the coil rows. -/
def gateReadout (g : List (List ℤ)) : ℕ := (g.headD []).length

/-- Keys of the grouping dictionary of post_processing in insertion
order.  The source builds the keys from
sorted(np.unique(readout_sizes, return_index=True)[1]), i.e. the
distinct readout sizes ordered by the index of their first occurrence,
and Python dicts iterate in insertion order; folding the sizes left to
right and appending unseen values produces exactly that key list. -/
def groupKeys (sizes : List ℕ) : List ℕ :=
  sizes.foldl (fun acc s => if s ∈ acc then acc else acc ++ [s]) []

/-- Gates grouped by readout length: for every key, the gates of that
readout length in arrival order (the source appends each gate of
rx_data to the dict bucket of its readout size). -/
def groupedGates (gates : List (List (List ℤ))) : List (List (List (List ℤ))) :=
  (groupKeys (gates.map gateReadout)).map
    (fun s => gates.filter (fun g => gateReadout g == s))

/-- Stack of a group of equally shaped gates along a new axis 1
(np.stack(group, axis=1)): entry [c][p][r] is element [c][r] of gate p,
so the result has shape [n_coils, n_pe, n_ro]. -/
def stackAxis1 (group : List (List (List ℤ))) : List (List (List ℤ)) :=
  (List.range (group.headD []).length).map (fun c => group.map (fun g => g.getD c []))

/-- Buckets produced by the grouping and stacking step of
post_processing (the local gate_lengths list). -/
def postGroupStack (gates : List (List (List ℤ))) : List (List (List (List ℤ))) :=
  (groupedGates gates).map stackAxis1

/-- Resampler used by the concrete example providers below: padding
with zeros and truncating gives an output of the requested length. -/
def takeResample : List ℂ → ℕ → List ℂ := fun l n => (l ++ List.replicate n 0).take n

/-- Example provider for RF-level and ADC-level computations: unit dwell
time, unit calibration, unit output limits. -/
def provC : SequenceProvider where
  gradientEfficiency := fun _ => 1
  gpaGain := fun _ => 1
  outputLimits := [1, 1, 1, 1]
  spcmDwellTime := 1
  rfToMvolt := 1
  rfDeadTime := 0
  rfRingdownTime := 0
  resample := takeResample
  resample_length := by
    intro l n
    simp [takeResample]
  blocks := []
  seqDuration := 0

/-- Example block with no events: a pure delay block of one dwell. -/
def blockA : Block where
  blockDuration := 1
  rf := none
  gx := none
  gy := none
  gz := none
  adc := none

/-- Example provider with one eventless block, for concrete runs of
unroll_sequence. -/
def provA : SequenceProvider where
  gradientEfficiency := fun _ => 1
  gpaGain := fun _ => 1
  outputLimits := [200, 16000, 6000, 6000]
  spcmDwellTime := 1
  rfToMvolt := 1
  rfDeadTime := 0
  rfRingdownTime := 0
  resample := takeResample
  resample_length := by
    intro l n
    simp [takeResample]
  blocks := [blockA]
  seqDuration := 1

/-- Example provider for gradient-level computations with the default
output limits of the test fixtures. -/
def provD : SequenceProvider where
  gradientEfficiency := fun _ => 1
  gpaGain := fun _ => 1
  outputLimits := [200, 6000, 6000, 6000]
  spcmDwellTime := 1
  rfToMvolt := 1
  rfDeadTime := 0
  rfRingdownTime := 0
  resample := takeResample
  resample_length := by
    intro l n
    simp [takeResample]
  blocks := []
  seqDuration := 0

/-- Example RF event with a one-sample constant envelope. -/
noncomputable def rfEventC1 : RfEvent where
  delay := 0
  deadTime := 0
  ringdownTime := 0
  shapeDur := 1
  phaseOffset := 0
  freqOffset := 0
  signal := [((1 : ℝ) : ℂ)]

/-- Example RF event whose envelope contains a large negative sample
followed by a small positive one. -/
noncomputable def rfEventC5 : RfEvent where
  delay := 0
  deadTime := 0
  ringdownTime := 0
  shapeDur := 0
  phaseOffset := 0
  freqOffset := 0
  signal := [((-2 : ℝ) : ℂ), ((1/2 : ℝ) : ℂ)]

/-- Example ADC event of one sample. -/
def adcEventC2 : AdcEvent where
  delay := 0
  deadTime := 0
  numSamples := 1
  dwell := 1

/-- Example trapezoid gradient event on channel x with a large negative
amplitude. -/
noncomputable def gradEventC6 : GradEvent := .trap 0 0 1 1 1 (-7000)

/-- Unit fov scaling. -/
def dimsOne : Dimensions := ⟨1, 1, 1⟩

/-- Positive gradient offset on channel x only. -/
def offsetPos : Dimensions := ⟨1, 0, 0⟩

/-- Negative gradient offset on channel x only. -/
noncomputable def offsetNeg : Dimensions := ⟨-100, 0, 0⟩

/-- Zero initial provider state. -/
def stZero : ProviderState := ⟨0, 0⟩

/-- Example gate list with a single coil and readout lengths 2, 1, 2. -/
def gatesC8 : List (List (List ℤ)) := [[[1, 2]], [[3]], [[4, 5]]]

/-- Mapping with indices preserves the length. -/
theorem length_mapIdxFrom (f : ℕ → ℤ → ℤ) : ∀ (k : ℕ) (l : List ℤ),
    (mapIdxFrom f k l).length = l.length
  | _, [] => rfl
  | k, _ :: xs => by simp [mapIdxFrom, length_mapIdxFrom f (k + 1) xs]

/-- Entry of an index-aware map at a position inside the list. -/
theorem getD_mapIdxFrom (f : ℕ → ℤ → ℤ) : ∀ (l : List ℤ) (k i : ℕ), i < l.length →
    (mapIdxFrom f k l).getD i 0 = f (k + i) (l.getD i 0) := by
  intro l
  induction l with
  | nil => intro k i h; simp at h
  | cons x xs ih =>
    intro k i h
    cases i with
    | zero => simp [mapIdxFrom]
    | succ j =>
      have hj : j < xs.length := by simpa using h
      have := ih (k + 1) j hj
      simp only [mapIdxFrom, List.getD_cons_succ]
      rw [this]
      congr 1
      omega

/-- Slice assignment preserves the length. -/
theorem length_setRange (l : List ℤ) (lo hi : ℕ) (v : ℤ) :
    (setRange l lo hi v).length = l.length := length_mapIdxFrom _ _ _

/-- Waveform writing preserves the length. -/
theorem length_writeRange (l : List ℤ) (lo len : ℕ) (f : ℕ → ℤ) :
    (writeRange l lo len f).length = l.length := length_mapIdxFrom _ _ _

/-- In-place waveform addition preserves the length. -/
theorem length_addRange (l : List ℤ) (lo : ℕ) (g : List ℤ) :
    (addRange l lo g).length = l.length := length_mapIdxFrom _ _ _

/-- Gradient offset application preserves the length. -/
theorem length_applyGradOffset (l : List ℤ) (o lim : ℝ) :
    (applyGradOffset l o lim).length = l.length := by
  unfold applyGradOffset
  split <;> simp

/-- Entry of a written waveform range inside the window. -/
theorem getD_writeRange (l : List ℤ) (lo len : ℕ) (f : ℕ → ℤ) (i : ℕ)
    (hi : i < l.length) (h1 : lo ≤ i) (h2 : i < lo + len) :
    (writeRange l lo len f).getD i 0 = f (i - lo) := by
  unfold writeRange
  rw [getD_mapIdxFrom _ l 0 i hi]
  simp [h1, h2]

/-- Entry of a replicated list inside the range. -/
theorem getD_replicate (n i : ℕ) (v : ℤ) (h : i < n) :
    (List.replicate n v).getD i 0 = v := by
  induction n generalizing i with
  | zero => omega
  | succ m ih =>
    cases i with
    | zero => simp [List.replicate]
    | succ j => simpa [List.replicate] using ih j (by omega)

/-- Entry of a zipWith combination inside both lists. -/
theorem getD_zipWith (f : ℤ → ℤ → ℤ) : ∀ (l1 l2 : List ℤ) (i : ℕ),
    i < l1.length → i < l2.length →
    (List.zipWith f l1 l2).getD i 0 = f (l1.getD i 0) (l2.getD i 0) := by
  intro l1
  induction l1 with
  | nil => intro l2 i h; simp at h
  | cons x xs ih =>
    intro l2 i h1 h2
    cases l2 with
    | nil => simp at h2
    | cons y ys =>
      cases i with
      | zero => simp
      | succ j =>
        have := ih ys j (by simpa using h1) (by simpa using h2)
        simpa using this

/-- Length of the interleaved replay array of four equally long
channels. -/
theorem length_interleave4 : ∀ (a b c d : List ℤ),
    b.length = a.length → c.length = a.length → d.length = a.length →
    (interleave4 a b c d).length = 4 * a.length := by
  intro a
  induction a with
  | nil =>
    intro b c d hb hc hd
    simp only [List.length_nil, List.length_eq_zero] at hb hc hd
    subst hb; subst hc; subst hd
    rfl
  | cons x xs ih =>
    intro b c d hb hc hd
    cases b with
    | nil => simp at hb
    | cons y ys =>
      cases c with
      | nil => simp at hc
      | cons z zs =>
        cases d with
        | nil => simp at hd
        | cons w ws =>
          have := ih ys zs ws (by simpa using hb) (by simpa using hc) (by simpa using hd)
          simp only [interleave4, List.length_cons, this]
          omega

/-- Entries of the interleaved replay array: index 4j + c holds sample j
of channel c. -/
theorem getD_interleave4 : ∀ (a b c d : List ℤ) (j : ℕ),
    b.length = a.length → c.length = a.length → d.length = a.length → j < a.length →
    (interleave4 a b c d).getD (4 * j) 0 = a.getD j 0 ∧
    (interleave4 a b c d).getD (4 * j + 1) 0 = b.getD j 0 ∧
    (interleave4 a b c d).getD (4 * j + 2) 0 = c.getD j 0 ∧
    (interleave4 a b c d).getD (4 * j + 3) 0 = d.getD j 0 := by
  intro a
  induction a with
  | nil => intro b c d j _ _ _ hj; simp at hj
  | cons x xs ih =>
    intro b c d j hb hc hd hj
    cases b with
    | nil => simp at hb
    | cons y ys =>
      cases c with
      | nil => simp at hc
      | cons z zs =>
        cases d with
        | nil => simp at hd
        | cons w ws =>
          cases j with
          | zero => simp [interleave4]
          | succ m =>
            have hrec := ih ys zs ws m (by simpa using hb) (by simpa using hc)
              (by simpa using hd) (by simpa using hj)
            have h0 : 4 * (m + 1) = (4 * m) + 1 + 1 + 1 + 1 := by ring
            have h1 : 4 * (m + 1) + 1 = (4 * m + 1) + 1 + 1 + 1 + 1 := by ring
            have h2 : 4 * (m + 1) + 2 = (4 * m + 2) + 1 + 1 + 1 + 1 := by ring
            have h3 : 4 * (m + 1) + 3 = (4 * m + 3) + 1 + 1 + 1 + 1 := by ring
            refine ⟨?_, ?_, ?_, ?_⟩
            · rw [h0]; simpa [interleave4] using hrec.1
            · rw [h1]; simpa [interleave4] using hrec.2.1
            · rw [h2]; simpa [interleave4] using hrec.2.2.1
            · rw [h3]; simpa [interleave4] using hrec.2.2.2

/-- Bit pattern of an int16 value is below 2^16. -/
theorem bitsOfInt16_lt (v : ℤ) : bitsOfInt16 v < 65536 := by
  unfold bitsOfInt16
  omega

/-- Wrapping does not change the bit pattern. -/
theorem bitsOfInt16_toInt16 (v : ℤ) : bitsOfInt16 (toInt16 v) = bitsOfInt16 v := by
  unfold bitsOfInt16 toInt16
  omega

/-- Bit pattern of a reinterpreted 16-bit pattern. -/
theorem bits_int16OfBits (u : ℕ) (h : u < 65536) : bitsOfInt16 (int16OfBits u) = u := by
  unfold bitsOfInt16 int16OfBits toInt16
  omega

/-- Right shifts distribute over bitwise or. -/
theorem lor_shiftRight (x y k : ℕ) : (x ||| y) >>> k = (x >>> k) ||| (y >>> k) := by
  apply Nat.eq_of_testBit_eq
  intro i
  simp [Nat.testBit_shiftRight, Nat.testBit_lor]

/-- Left shifts distribute over bitwise or. -/
theorem lor_shiftLeft (x y k : ℕ) : (x ||| y) <<< k = (x <<< k) ||| (y <<< k) := by
  apply Nat.eq_of_testBit_eq
  intro i
  simp [Nat.testBit_shiftLeft, Nat.testBit_lor, Bool.and_or_distrib_left]

/-- Reduction modulo 2^16 distributes over bitwise or. -/
theorem lor_mod_two16 (x y : ℕ) : (x ||| y) % 65536 = (x % 65536) ||| (y % 65536) := by
  have h : (65536 : ℕ) = 2 ^ 16 := by norm_num
  rw [h]
  apply Nat.eq_of_testBit_eq
  intro i
  simp only [Nat.testBit_mod_two_pow, Nat.testBit_lor, Bool.and_or_distrib_left]

/-- Bitwise or of two 16-bit patterns is a 16-bit pattern. -/
theorem lor_lt_two16 (x y : ℕ) (hx : x < 65536) (hy : y < 65536) : x ||| y < 65536 := by
  have h : (65536 : ℕ) = 2 ^ 16 := by norm_num
  rw [h] at hx hy ⊢
  exact Nat.bitwise_lt hx hy

/-- Bit pattern of a packed gradient sample. -/
theorem bits_packSample (v b : ℤ) :
    bitsOfInt16 (packSample v b) = (bitsOfInt16 v >>> 1) ||| bitsOfInt16 (b * 32768) := by
  apply bits_int16OfBits
  apply lor_lt_two16
  · have hx := bitsOfInt16_lt v
    rw [Nat.shiftRight_eq_div_pow]
    omega
  · exact bitsOfInt16_lt _

/-- C3 (amended): for every gradient sample packed by the unroller
(seq[i::4] = seq[i::4].view(uint16) >> 1 | side << 15, applied to every
gradient slot of every block), reading bit 15 of the uint16 view
recovers the digital side value; but shifting the packed int16 left by
one and then arithmetically right by one yields the stored analog int16
value arithmetically halved (floor of v / 2), not the value itself —
shifting left by one alone recovers the value with its lowest bit
cleared. -/
theorem C3_digital_packing (v b : ℤ) (hb : b = 0 ∨ b = 1) :
    bitsOfInt16 (packSample v b) >>> 15 = b.toNat ∧
    ashrInt16 (shlInt16 (packSample v b)) = toInt16 v / 2 := by
  have hx : bitsOfInt16 v < 65536 := bitsOfInt16_lt v
  have hx2 : bitsOfInt16 v >>> 1 < 32768 := by
    rw [Nat.shiftRight_eq_div_pow]
    omega
  have hbp := bits_packSample v b
  have h1 : bitsOfInt16 v >>> 1 >>> 15 = 0 := by
    rw [Nat.shiftRight_eq_div_pow]
    exact Nat.div_eq_of_lt (by omega)
  have hsr : bitsOfInt16 v >>> 1 = bitsOfInt16 v / 2 := by
    simp [Nat.shiftRight_eq_div_pow]
  constructor
  · rw [hbp, lor_shiftRight, h1]
    rcases hb with rfl | rfl
    · decide
    · decide
  · unfold shlInt16 ashrInt16
    rw [hbp, lor_shiftLeft, lor_mod_two16]
    have hB0 : (bitsOfInt16 (b * 32768) <<< 1) % 65536 = 0 := by
      rcases hb with rfl | rfl
      · decide
      · decide
    have hA : ((bitsOfInt16 v >>> 1) <<< 1) % 65536 = 2 * (bitsOfInt16 v / 2) := by
      rw [Nat.shiftLeft_eq, hsr]
      have : bitsOfInt16 v / 2 * 2 ^ 1 = 2 * (bitsOfInt16 v / 2) := by ring
      rw [this]
      omega
    rw [hB0, hA, Nat.or_zero]
    simp only [int16OfBits, toInt16, bitsOfInt16]
    omega

/-- Witness for C3 at the packed sample of value 2 and ADC bit 1. -/
theorem C3_digital_packing_witness :
    ((1 : ℤ) = 0 ∨ (1 : ℤ) = 1) ∧
    (bitsOfInt16 (packSample 2 1) >>> 15 = (1 : ℤ).toNat ∧
     ashrInt16 (shlInt16 (packSample 2 1)) = toInt16 2 / 2) :=
  ⟨Or.inr rfl, C3_digital_packing 2 1 (Or.inr rfl)⟩

/-- Python round of one. -/
theorem pyRound_one : pyRound 1 = 1 := by
  unfold pyRound
  norm_num

/-- Sample count of the example block at unit dwell. -/
theorem nSamples_provA : nSamples provA blockA = 1 := by
  simp [nSamples, provA, blockA, pyRound_one]

/-- Offset value of one mV at a 16000 mV output limit. -/
theorem gradOffsetValue_pos_eval : gradOffsetValue 1 16000 = 2 := by
  unfold gradOffsetValue int16OfFloat truncToZero
  rw [if_pos (by norm_num [INT16_MAX])]
  have hf : ⌊(1 : ℝ) / 16000 * 32767⌋ = 2 := by
    norm_num [Int.floor_eq_iff, INT16_MAX]
  norm_num [INT16_MAX, hf]
  decide

/-- Offset application of the positive example offset. -/
theorem applyGradOffset_pos_eval : applyGradOffset [(0 : ℤ)] 1 16000 = [2] := by
  unfold applyGradOffset
  rw [if_pos one_pos]
  simp [gradOffsetValue_pos_eval]
  decide

/-- Offset application of a zero offset. -/
theorem applyGradOffset_zero_eval (l : List ℤ) (lim : ℝ) :
    applyGradOffset l 0 lim = l := by
  unfold applyGradOffset
  rw [if_neg (lt_irrefl 0)]

/-- Offset application of the negative example offset. -/
theorem applyGradOffset_neg_eval (l : List ℤ) (lim : ℝ) :
    applyGradOffset l (-100) lim = l := by
  unfold applyGradOffset
  rw [if_neg (by norm_num)]

/-- Evaluation of the unroll loop body on the eventless example block
with the positive x offset. -/
theorem processBlock_provA_pos :
    processBlock provA 1 1 dimsOne offsetPos
      ⟨[], [], [], [], 0, 0, none⟩ blockA =
      .ok ⟨[[0, 1, 0, 0]], [[0]], [[0]], [[0]], 1, 0, none⟩ := by
  unfold processBlock
  rw [show nSamples provA blockA = 1 from nSamples_provA]
  simp only [blockA, List.replicate, offsetPos, dimsOne]
  rw [show limit provA 1 = 16000 by simp [limit, provA]]
  rw [applyGradOffset_pos_eval, applyGradOffset_zero_eval, applyGradOffset_zero_eval]
  simp only [gradStep, rfStepF, adcStepF]
  norm_num [interleave4, List.zipWith]
  decide

/-- Evaluation of the unroll loop body on the eventless example block
with the negative x offset. -/
theorem processBlock_provA_neg :
    processBlock provA 1 1 dimsOne offsetNeg
      ⟨[], [], [], [], 0, 0, none⟩ blockA =
      .ok ⟨[[0, 0, 0, 0]], [[0]], [[0]], [[0]], 1, 0, none⟩ := by
  unfold processBlock
  rw [show nSamples provA blockA = 1 from nSamples_provA]
  simp only [blockA, List.replicate, offsetNeg, dimsOne]
  rw [applyGradOffset_neg_eval, applyGradOffset_zero_eval, applyGradOffset_zero_eval]
  simp only [gradStep, rfStepF, adcStepF]
  norm_num [interleave4, List.zipWith]
  decide

/-- Evaluation of the unroll loop on the block list of the example
provider with the positive x offset. -/
theorem processBlocks_provA_pos :
    processBlocks provA 1 1 dimsOne offsetPos
      ⟨[], [], [], [], 0, 0, none⟩ provA.blocks =
      (⟨[[0, 1, 0, 0]], [[0]], [[0]], [[0]], 1, 0, none⟩, none) := by
  rw [show provA.blocks = [blockA] from rfl]
  unfold processBlocks
  rw [processBlock_provA_pos]
  rfl

/-- Evaluation of the unroll loop on the block list of the example
provider with the negative x offset. -/
theorem processBlocks_provA_neg :
    processBlocks provA 1 1 dimsOne offsetNeg
      ⟨[], [], [], [], 0, 0, none⟩ provA.blocks =
      (⟨[[0, 0, 0, 0]], [[0]], [[0]], [[0]], 1, 0, none⟩, none) := by
  rw [show provA.blocks = [blockA] from rfl]
  unfold processBlocks
  rw [processBlock_provA_neg]
  rfl

/-- Gradient offset checks pass on the example provider for the
positive example offset. -/
theorem check_offsets_provA_pos : check_offsets provA offsetPos = .ok () := by
  unfold check_offsets
  rw [if_neg (by simp [provA])]
  rw [if_neg (by norm_num [limit, provA, offsetPos])]
  rw [if_neg (by norm_num [limit, provA, offsetPos])]
  rw [if_neg (by norm_num [limit, provA, offsetPos])]

/-- Gradient offset checks pass on the example provider for the
negative example offset. -/
theorem check_offsets_provA_neg : check_offsets provA offsetNeg = .ok () := by
  unfold check_offsets
  rw [if_neg (by simp [provA])]
  rw [if_neg (by norm_num [limit, provA, offsetNeg])]
  rw [if_neg (by norm_num [limit, provA, offsetNeg])]
  rw [if_neg (by norm_num [limit, provA, offsetNeg])]

/-- Concrete run of unroll_sequence on the example provider with the
positive x gradient offset of one mV: the single gradient x slot holds
the packed DC offset value. -/
theorem unrollA_pos_eval :
    unroll_sequence provA stZero 1 1 dimsOne offsetPos =
      (⟨1, 1⟩,
       .ok { seq := [[0, 1, 0, 0]], adc_gate := [[0]], rf_unblanking := [[0]],
             sample_count := 1, gpa_gain := provA.gpaGain,
             gradient_efficiency := provA.gradientEfficiency, rf_to_mvolt := 1,
             dwell_time := 1, larmor_frequency := 1, duration := 1, adc_count := 0 }) := by
  unfold unroll_sequence
  rw [if_neg (by norm_num)]
  rw [if_neg (by simp [provA])]
  simp only [check_offsets_provA_pos, stZero, processBlocks_provA_pos]
  rfl

/-- Concrete run of unroll_sequence on the example provider with the
negative x gradient offset: the offset is dropped and the gradient x
slot stays zero. -/
theorem unrollA_neg_eval :
    unroll_sequence provA stZero 1 1 dimsOne offsetNeg =
      (⟨1, 1⟩,
       .ok { seq := [[0, 0, 0, 0]], adc_gate := [[0]], rf_unblanking := [[0]],
             sample_count := 1, gpa_gain := provA.gpaGain,
             gradient_efficiency := provA.gradientEfficiency, rf_to_mvolt := 1,
             dwell_time := 1, larmor_frequency := 1, duration := 1, adc_count := 0 }) := by
  unfold unroll_sequence
  rw [if_neg (by norm_num)]
  rw [if_neg (by simp [provA])]
  simp only [check_offsets_provA_neg, stZero, processBlocks_provA_neg]
  rfl

/-- Wrapping the analog value before packing does not change the packed
sample. -/
theorem packSample_toInt16 (v b : ℤ) : packSample (toInt16 v) b = packSample v b := by
  unfold packSample
  rw [bitsOfInt16_toInt16]

/-- Wrapping twice is wrapping once. -/
theorem toInt16_idem (z : ℤ) : toInt16 (toInt16 z) = toInt16 z := by
  unfold toInt16
  omega

/-- Packed entry of a gradient channel that received only the DC offset
treatment and a zero side array: the packed DC offset value when the
offset is positive, the packed zero otherwise. -/
theorem offsetChannelEntry (n m : ℕ) (o lim : ℝ) (hm : m < n) :
    (List.zipWith packSample (applyGradOffset (List.replicate n 0) o lim)
      (List.replicate n 0)).getD m 0
      = packSample (if 0 < o then gradOffsetValue o lim else 0) 0 := by
  rw [getD_zipWith _ _ _ m
    (by rw [length_applyGradOffset]; simpa using hm) (by simpa using hm)]
  rw [getD_replicate _ _ _ hm]
  unfold applyGradOffset
  split
  · rw [List.map_replicate, getD_replicate _ _ _ hm, zero_add]
    exact packSample_toInt16 _ _
  · rw [getD_replicate _ _ _ hm]

/-- C4 (amended): in every block and before any gradient event is
processed, the unroll loop adds the DC offset value
int16((gradient_offset[c] / output_limits[c]) * INT16_MAX) into the
gradient channel slots — but only for strictly positive offset
components; zero and negative components are skipped (a no-op for
zero, a dropped offset for negative values).  Stated on an eventless
block, where the packed channel entries expose exactly the applied
offset. -/
theorem C4_gradient_dc_offsets (P : SequenceProvider) (larmor b1 : ℝ)
    (fov off : Dimensions) (acc : BlockAcc) (b : Block) (m : ℕ)
    (hrf : b.rf = none) (hgx : b.gx = none) (hgy : b.gy = none) (hgz : b.gz = none)
    (hadc : b.adc = none) (hm : m < nSamples P b) :
    isOkE (processBlock P larmor b1 fov off acc b) = true ∧
    (((okValue default (processBlock P larmor b1 fov off acc b)).seqBlocks.getLastD []).getD
        (4 * m + 1) 0
      = packSample (if 0 < off.x then gradOffsetValue off.x (limit P 1) else 0) 0 ∧
     ((okValue default (processBlock P larmor b1 fov off acc b)).seqBlocks.getLastD []).getD
        (4 * m + 2) 0
      = packSample (if 0 < off.y then gradOffsetValue off.y (limit P 2) else 0) 0 ∧
     ((okValue default (processBlock P larmor b1 fov off acc b)).seqBlocks.getLastD []).getD
        (4 * m + 3) 0
      = packSample (if 0 < off.z then gradOffsetValue off.z (limit P 3) else 0) 0) := by
  have hpb : processBlock P larmor b1 fov off acc b =
      .ok { seqBlocks := acc.seqBlocks ++
              [interleave4 (List.replicate (nSamples P b) 0)
                (List.zipWith packSample
                  (applyGradOffset (List.replicate (nSamples P b) 0) off.x (limit P 1))
                  (List.replicate (nSamples P b) 0))
                (List.zipWith packSample
                  (applyGradOffset (List.replicate (nSamples P b) 0) off.y (limit P 2))
                  (List.replicate (nSamples P b) 0))
                (List.zipWith packSample
                  (applyGradOffset (List.replicate (nSamples P b) 0) off.z (limit P 3))
                  (List.replicate (nSamples P b) 0))],
            adcBlocks := acc.adcBlocks ++ [List.replicate (nSamples P b) 0],
            unblankBlocks := acc.unblankBlocks ++ [List.replicate (nSamples P b) 0],
            refBlocks := acc.refBlocks ++ [List.replicate (nSamples P b) 0],
            sampleCount := acc.sampleCount + nSamples P b,
            adcCount := acc.adcCount + 0,
            rfStartSamplePos := acc.rfStartSamplePos } := by
    unfold processBlock
    rw [hrf, hgx, hgy, hgz, hadc]
    rfl
  have hlen : ∀ o lim,
      (List.zipWith packSample
        (applyGradOffset (List.replicate (nSamples P b) 0) o lim)
        (List.replicate (nSamples P b) 0)).length = nSamples P b := by
    intro o lim
    simp [List.length_zipWith, length_applyGradOffset]
  have hint := getD_interleave4 (List.replicate (nSamples P b) 0)
    (List.zipWith packSample
      (applyGradOffset (List.replicate (nSamples P b) 0) off.x (limit P 1))
      (List.replicate (nSamples P b) 0))
    (List.zipWith packSample
      (applyGradOffset (List.replicate (nSamples P b) 0) off.y (limit P 2))
      (List.replicate (nSamples P b) 0))
    (List.zipWith packSample
      (applyGradOffset (List.replicate (nSamples P b) 0) off.z (limit P 3))
      (List.replicate (nSamples P b) 0))
    m (by simp [hlen]) (by simp [hlen]) (by simp [hlen]) (by simpa using hm)
  refine ⟨by rw [hpb]; rfl, ?_, ?_, ?_⟩
  · rw [hpb]
    show (((acc.seqBlocks ++ [_]).getLastD []).getD (4 * m + 1) 0) = _
    rw [List.getLastD_concat]
    rw [hint.2.1]
    exact offsetChannelEntry _ _ _ _ hm
  · rw [hpb]
    show (((acc.seqBlocks ++ [_]).getLastD []).getD (4 * m + 2) 0) = _
    rw [List.getLastD_concat]
    rw [hint.2.2.1]
    exact offsetChannelEntry _ _ _ _ hm
  · rw [hpb]
    show (((acc.seqBlocks ++ [_]).getLastD []).getD (4 * m + 3) 0) = _
    rw [List.getLastD_concat]
    rw [hint.2.2.2]
    exact offsetChannelEntry _ _ _ _ hm

/-- Witness for C4 on the eventless example block with the positive
one mV x offset. -/
theorem C4_gradient_dc_offsets_witness :
    (blockA.rf = none ∧ blockA.gx = none ∧ blockA.gy = none ∧ blockA.gz = none ∧
     blockA.adc = none ∧ 0 < nSamples provA blockA) ∧
    (isOkE (processBlock provA 1 1 dimsOne offsetPos ⟨[], [], [], [], 0, 0, none⟩ blockA)
        = true ∧
     (((okValue default (processBlock provA 1 1 dimsOne offsetPos
          ⟨[], [], [], [], 0, 0, none⟩ blockA)).seqBlocks.getLastD []).getD (4 * 0 + 1) 0
        = packSample (if 0 < offsetPos.x then gradOffsetValue offsetPos.x (limit provA 1)
            else 0) 0 ∧
      ((okValue default (processBlock provA 1 1 dimsOne offsetPos
          ⟨[], [], [], [], 0, 0, none⟩ blockA)).seqBlocks.getLastD []).getD (4 * 0 + 2) 0
        = packSample (if 0 < offsetPos.y then gradOffsetValue offsetPos.y (limit provA 2)
            else 0) 0 ∧
      ((okValue default (processBlock provA 1 1 dimsOne offsetPos
          ⟨[], [], [], [], 0, 0, none⟩ blockA)).seqBlocks.getLastD []).getD (4 * 0 + 3) 0
        = packSample (if 0 < offsetPos.z then gradOffsetValue offsetPos.z (limit provA 3)
            else 0) 0)) :=
  ⟨⟨rfl, rfl, rfl, rfl, rfl, by rw [nSamples_provA]; norm_num⟩,
   C4_gradient_dc_offsets provA 1 1 dimsOne offsetPos ⟨[], [], [], [], 0, 0, none⟩ blockA 0
     rfl rfl rfl rfl rfl (by rw [nSamples_provA]; norm_num)⟩

/-- Counterexample for C4: running unroll with the in-range negative x
offset of minus 100 mV at a 16000 mV limit leaves the gradient x slot
at zero, although the claimed DC offset value int16((-100/16000)*32767)
is -204 and its packed form is nonzero; negative offsets are dropped by
the source (only offsets greater than zero are applied). -/
theorem C4_gradient_dc_offsets_counterexample :
    ((okValue default (unroll_sequence provA stZero 1 1 dimsOne offsetNeg).2).seq.getD 0
        []).getD 1 0 = 0 ∧
    gradOffsetValue (-100) (limit provA 1) = -204 ∧
    packSample (-204) 0 ≠ 0 ∧
    |(-100 : ℝ)| ≤ limit provA 1 := by
  refine ⟨?_, ?_, by decide, by norm_num [limit, provA]⟩
  · rw [unrollA_neg_eval]
    rfl
  · rw [show limit provA 1 = 16000 by simp [limit, provA]]
    unfold gradOffsetValue int16OfFloat truncToZero
    rw [if_neg (by norm_num [INT16_MAX])]
    have hc : ⌈(-100 : ℝ) / 16000 * (INT16_MAX : ℤ)⌉ = -204 := by
      norm_num [Int.ceil_eq_iff, INT16_MAX]
    rw [hc]
    decide

/-- Counterexample for C3: in the unrolled example sequence with a DC
offset of one mV on x, the analog int16 value stored in the gradient x
slot before packing is 2, the packed entry is packSample 2 0, and
shifting it left by one then right by one yields 1, not the stored
value 2. -/
theorem C3_digital_packing_counterexample :
    ((okValue default (unroll_sequence provA stZero 1 1 dimsOne offsetPos).2).seq.getD 0
        []).getD 1 0 = packSample 2 0 ∧
    gradOffsetValue 1 (limit provA 1) = 2 ∧
    ashrInt16 (shlInt16 (packSample 2 0)) = 1 ∧
    (2 : ℤ) ≠ 1 := by
  refine ⟨?_, ?_, by decide, by decide⟩
  · rw [unrollA_pos_eval]
    rfl
  · rw [show limit provA 1 = 16000 by simp [limit, provA]]
    exact gradOffsetValue_pos_eval

/-- C7 (amended): after the averaging loop, run raises MissingAverage
exactly when some accumulated gate-length bucket holds a number of
average rows different from num_averages; when no gates arrived and the
bucket list is empty, the all() check passes vacuously and run returns
the Acquisition Data instead of raising. -/
theorem C7_missing_average_check {α : Type} (raw : List (List α)) (numAverages : ℕ) :
    runValidate raw numAverages = .error .missingAverage ↔
      ∃ g ∈ raw, g.length ≠ numAverages := by
  unfold runValidate runPostCheck
  split
  case isTrue h =>
    rw [List.all_eq_true] at h
    simp only [beq_iff_eq] at h
    refine iff_of_false (by simp) ?_
    rintro ⟨g, hg, hne⟩
    exact absurd (h g hg) hne
  case isFalse h =>
    rw [List.all_eq_true] at h
    simp only [beq_iff_eq] at h
    push_neg at h
    simpa using h

/-- Counterexample for C7: with an empty bucket list (no gates arrived
in any average) the post-check passes vacuously and run returns the
Acquisition Data instead of raising MissingAverage. -/
theorem C7_empty_raw_counterexample :
    runValidate ([] : List (List ℤ)) 2 = .ok [] ∧
    runValidate ([] : List (List ℤ)) 2 ≠ .error .missingAverage := by
  constructor
  · rfl
  · intro h
    exact Except.noConfusion h

/-- C10: the result of unroll_sequence is independent of the mutable
provider state (larmor_freq, sample_count) left by earlier invocations,
because the sample counter is reset to zero and the larmor frequency is
reassigned at the start of every call; in particular two successive
calls with identical arguments return equal UnrolledSequence results. -/
theorem C10_unroll_state_independence (P : SequenceProvider) (st1 st2 : ProviderState)
    (larmorFreq b1 : ℝ) (fov off : Dimensions) :
    (unroll_sequence P st1 larmorFreq b1 fov off).2 =
      (unroll_sequence P st2 larmorFreq b1 fov off).2 ∧
    (unroll_sequence P (unroll_sequence P st1 larmorFreq b1 fov off).1
        larmorFreq b1 fov off).2 =
      (unroll_sequence P st1 larmorFreq b1 fov off).2 := by
  have key : ∀ s t : ProviderState,
      (unroll_sequence P s larmorFreq b1 fov off).2 =
        (unroll_sequence P t larmorFreq b1 fov off).2 := by
    intro s t
    by_cases h1 : 10e6 < larmorFreq
    · simp [unroll_sequence, h1]
    · by_cases h2 : P.blocks.length = 0
      · simp [unroll_sequence, h1, h2]
      · cases hco : check_offsets P off with
        | error e => simp [unroll_sequence, h1, h2, hco]
        | ok u =>
          cases hpb : processBlocks P larmorFreq b1 fov off
              ⟨[], [], [], [], 0, 0, none⟩ P.blocks with
          | mk acc oe =>
            cases oe <;> simp [unroll_sequence, h1, h2, hco, hpb]
  exact ⟨key st1 st2, key _ st1⟩

/-- C5 (amended): calculate_rf raises the amplitude error if and only
if the modulus of the lexicographically greatest element of the scaled
envelope (np.abs applied to np.amax of the complex array) exceeds one;
this is not the maximum modulus over the envelope, so a successful
unroll does not bound every envelope sample by one in modulus. -/
theorem C5_rf_amplitude_check (P : SequenceProvider) (larmorFreq b1 : ℝ)
    (sampleCount rfStart : ℕ) (rf : RfEvent) (unrollArr unblanking : List ℤ)
    (hsig : rf.signal ≠ []) :
    (calculate_rf P larmorFreq sampleCount rf unrollArr b1 unblanking rfStart
        = .error .rfAmplitude) ↔
      1 < Complex.abs (lexAmax (rfEnvelopeScaled P rf b1)) := by
  unfold calculate_rf
  split_ifs with hA
  · exact iff_of_true rfl hA
  · refine iff_of_false ?_ hA
    intro h
    simp only [] at h
    split at h <;> simp at h

/-- Witness for C5 on the one-sample example envelope. -/
theorem C5_rf_amplitude_check_witness :
    rfEventC1.signal ≠ [] ∧
    ((calculate_rf provC (1/4) 1 rfEventC1 [0] 1 [0] 0 = .error .rfAmplitude) ↔
      1 < Complex.abs (lexAmax (rfEnvelopeScaled provC rfEventC1 1))) :=
  ⟨by simp [rfEventC1],
   C5_rf_amplitude_check provC (1/4) 1 1 0 rfEventC1 [0] [0] (by simp [rfEventC1])⟩

/-- Scaled envelope of the two-sample example event is the literal
pair of its samples. -/
theorem rfEnvelopeScaled_C5_eval :
    rfEnvelopeScaled provC rfEventC5 1 = [((-2 : ℝ) : ℂ), ((1/2 : ℝ) : ℂ)] := by
  unfold rfEnvelopeScaled rfEventC5 rfScaling
  norm_num [limit, provC]

/-- Lexicographic maximum of the example envelope is its second sample. -/
theorem lexAmax_C5_eval :
    lexAmax [((-2 : ℝ) : ℂ), ((1/2 : ℝ) : ℂ)] = ((1/2 : ℝ) : ℂ) := by
  have hlt : lexLt ((-2 : ℝ) : ℂ) ((1/2 : ℝ) : ℂ) := by
    unfold lexLt
    left
    norm_num [Complex.ofReal_re]
  unfold lexAmax
  simp only [List.foldl]
  unfold cmax
  rw [if_pos hlt]

/-- Counterexample for C5: on an envelope with samples -2 and 1/2 at
unit scaling, np.abs(np.amax(...)) is 1/2 (modulus of the
lexicographically greatest element), so calculate_rf succeeds although
the first scaled envelope sample has modulus 2 greater than one. -/
theorem C5_rf_amplitude_check_counterexample :
    isOkE (calculate_rf provC 1 0 rfEventC5 [] 1 [] 0) = true ∧
    1 < Complex.abs ((rfEnvelopeScaled provC rfEventC5 1).getD 0 0) := by
  have habs : ¬ 1 < Complex.abs (lexAmax (rfEnvelopeScaled provC rfEventC5 1)) := by
    rw [rfEnvelopeScaled_C5_eval, lexAmax_C5_eval]
    rw [Complex.abs_ofReal]
    rw [abs_of_nonneg (by norm_num : (0 : ℝ) ≤ 1/2)]
    norm_num
  have hnum : rfNumSamples provC rfEventC5 = 0 := by
    unfold rfNumSamples rfEventC5 pyInt truncToZero
    norm_num
  have hdel : rfSamplesDelay provC rfEventC5 = 0 := by
    unfold rfSamplesDelay rfEventC5 pyInt truncToZero
    norm_num [provC, spcmFreq]
  constructor
  · unfold calculate_rf
    rw [if_neg habs, if_neg (by rw [hnum, hdel]; simp)]
    rfl
  · rw [rfEnvelopeScaled_C5_eval]
    simp only [List.getD_cons_zero]
    rw [Complex.abs_ofReal]
    norm_num

/-- C6 (amended): calculate_gradient raises the amplitude error
(OutOfRange) if and only if the signed maximum of the scaled waveform
plus the signed slot offset exceeds the channel output limit —
np.amax(waveform * scaling) + offset > output_limits[idx], with no
absolute values; a scaled waveform that is negative but exceeds the
limit in magnitude is therefore not rejected. -/
theorem C6_grad_amplitude_check (P : SequenceProvider) (g : GradEvent)
    (unrollArr : List ℤ) (fovScaling : ℝ) (hwf : g.waveNonempty) :
    (calculate_gradient P g unrollArr fovScaling = .error (.gradAmplitude g.channel)) ↔
      limit P (gradIdx g) <
        gradScaledPeak P g fovScaling + gradOffsetMv P g unrollArr := by
  unfold calculate_gradient
  cases g with
  | trap c d r fl fa amp =>
    simp only [GradEvent.channel]
    split_ifs with hA hB <;> simp [hA]
  | arb c d sd tt wf =>
    simp only [GradEvent.channel]
    split_ifs with hA hB <;> simp [hA]

/-- Witness for C6 on the example trapezoid. -/
theorem C6_grad_amplitude_check_witness :
    (gradEventC6.waveNonempty) ∧
    ((calculate_gradient provD gradEventC6 (List.replicate 4 0) 42580
        = .error (.gradAmplitude gradEventC6.channel)) ↔
      limit provD (gradIdx gradEventC6) <
        gradScaledPeak provD gradEventC6 42580 +
          gradOffsetMv provD gradEventC6 (List.replicate 4 0)) :=
  ⟨by unfold gradEventC6 GradEvent.waveNonempty; exact trivial,
   C6_grad_amplitude_check provD gradEventC6 (List.replicate 4 0) 42580
     (by unfold gradEventC6 GradEvent.waveNonempty; exact trivial)⟩

/-- Scaled peak of the example trapezoid: the whole scaling chain
42580 / (42.58e3 * 1 * 1) is one, so the peak is the raw amplitude. -/
theorem gradScaledPeak_C6_eval :
    gradScaledPeak provD (.trap 0 0 1 1 1 (-7000)) 42580 = -7000 := by
  unfold gradScaledPeak gradScaling gradIdx GradEvent.channel
  norm_num [provD]

/-- Slot offset of the example trapezoid over a zero slot is zero. -/
theorem gradOffsetMv_C6_eval :
    gradOffsetMv provD (.trap 0 0 1 1 1 (-7000)) (List.replicate 4 0) = 0 := by
  unfold gradOffsetMv
  simp [INT16_MAX]

/-- Counterexample for C6: a trapezoid whose scaled amplitude is -7000
at a 6000 mV limit passes the signed amplitude check (6000 < -7000 is
false) and calculate_gradient succeeds, although the magnitude of the
scaled amplitude plus the magnitude of the offset exceeds the limit, so
the claim (with absolute values) says it must be rejected. -/
theorem C6_grad_amplitude_check_counterexample :
    isOkE (calculate_gradient provD gradEventC6 (List.replicate 4 0) 42580) = true ∧
    limit provD (gradIdx gradEventC6) <
      |gradScaledPeak provD gradEventC6 42580| +
        |gradOffsetMv provD gradEventC6 (List.replicate 4 0)| := by
  have hg : gradEventC6 = .trap 0 0 1 1 1 (-7000) := rfl
  have hlim : limit provD (gradIdx (GradEvent.trap 0 0 1 1 1 (-7000))) = 6000 := by
    norm_num [limit, gradIdx, GradEvent.channel, provD]
  constructor
  · rw [hg]
    unfold calculate_gradient
    simp only []
    rw [if_neg (by rw [hlim, gradScaledPeak_C6_eval, gradOffsetMv_C6_eval]; norm_num)]
    rw [if_neg ?hidx]
    case hidx =>
      have hd : pyInt ((GradEvent.trap 0 0 1 1 1 (-7000)).delay * spcmFreq provD) = 0 := by
        unfold GradEvent.delay pyInt truncToZero
        norm_num [spcmFreq, provD]
      have h1 : pyInt ((1 : ℝ) / provD.spcmDwellTime) = 1 := by
        unfold pyInt truncToZero
        norm_num [provD]
      have hlsr : ∀ a b : ℤ, (linspaceInt a b 1).length = 1 := by
        intro a b
        unfold linspaceInt
        norm_num
      rw [hd, h1]
      simp [hlsr]
    rfl
  · rw [hg, hlim, gradScaledPeak_C6_eval, gradOffsetMv_C6_eval]
    norm_num

/-- Lexicographic positivity of a point on the unit circle, written with
the real cosine and sine of its angle. -/
theorem complexGtZero_exp (r : ℝ) :
    complexGtZero (Complex.exp (2 * (Real.pi : ℂ) * Complex.I * (r : ℂ))) ↔
      (0 < Real.cos (2 * Real.pi * r) ∨
       (Real.cos (2 * Real.pi * r) = 0 ∧ 0 < Real.sin (2 * Real.pi * r))) := by
  have harg : 2 * (Real.pi : ℂ) * Complex.I * (r : ℂ)
      = ((2 * Real.pi * r : ℝ) : ℂ) * Complex.I := by
    push_cast
    ring
  rw [harg]
  unfold complexGtZero
  rw [Complex.exp_ofReal_mul_I_re, Complex.exp_ofReal_mul_I_im]

/-- C2 (amended): for every block containing an ADC event the reference
side array is filled over the whole block, and ref_k[m] = 1 if and only
if the complex reference sample
exp(2*pi*i*(f_L*(m*dwell) + sample_count*dwell)) compares greater than
zero under the lexicographic complex order of numpy, i.e. iff
cos(2*pi*(f_L*m*dwell + sample_count*dwell)) > 0, or that cosine is
zero and the corresponding sine is positive.  The constant phase term
is sample_count*dwell, not multiplied by f_L, and the comparison sees
the real part (cosine), not the sine claimed by the specification. -/
theorem C2_reference_signal (P : SequenceProvider) (larmorFreq : ℝ) (sampleCount : ℕ)
    (adc : AdcEvent) (gate : List ℤ) (n m : ℕ) (hm : m < n) :
    ((add_adc_gate P larmorFreq sampleCount adc gate (List.replicate n 0)).2.getD m 0 = 1)
      ↔ (0 < Real.cos (2 * Real.pi * (larmorFreq * (m * P.spcmDwellTime) +
            sampleCount * P.spcmDwellTime)) ∨
         (Real.cos (2 * Real.pi * (larmorFreq * (m * P.spcmDwellTime) +
            sampleCount * P.spcmDwellTime)) = 0 ∧
          0 < Real.sin (2 * Real.pi * (larmorFreq * (m * P.spcmDwellTime) +
            sampleCount * P.spcmDwellTime)))) := by
  have hiff := complexGtZero_exp (larmorFreq * (m * P.spcmDwellTime) +
    (sampleCount : ℝ) * P.spcmDwellTime)
  unfold add_adc_gate
  rw [getD_mapIdxFrom _ _ 0 m (by simpa using hm)]
  rw [getD_replicate _ _ _ hm]
  rw [Nat.zero_add m]
  split_ifs with hc
  · exact iff_of_true rfl (hiff.mp hc)
  · exact iff_of_false (by norm_num) (fun hr => hc (hiff.mpr hr))

/-- Witness for C2 at the first sample of the first block. -/
theorem C2_reference_signal_witness :
    0 < 1 ∧
    (((add_adc_gate provC 2 0 adcEventC2 [0] (List.replicate 1 0)).2.getD 0 0 = 1)
      ↔ (0 < Real.cos (2 * Real.pi * (2 * ((0 : ℕ) * provC.spcmDwellTime) +
            (0 : ℕ) * provC.spcmDwellTime)) ∨
         (Real.cos (2 * Real.pi * (2 * ((0 : ℕ) * provC.spcmDwellTime) +
            (0 : ℕ) * provC.spcmDwellTime)) = 0 ∧
          0 < Real.sin (2 * Real.pi * (2 * ((0 : ℕ) * provC.spcmDwellTime) +
            (0 : ℕ) * provC.spcmDwellTime))))) :=
  ⟨Nat.zero_lt_one, C2_reference_signal provC 2 0 adcEventC2 [0] 1 0 Nat.zero_lt_one⟩

/-- Counterexample for C2: at the very first reference sample (running
sample count zero, local sample zero) the complex reference equals one,
which compares greater than zero, so the source sets ref to one; but
sin(2*pi*f_L*(sample_count + m)*dwell) = sin 0 = 0 is not positive, so
the claimed condition says the sample must be zero. -/
theorem C2_reference_signal_counterexample :
    (add_adc_gate provC 2 0 adcEventC2 [0] (List.replicate 1 0)).2.getD 0 0 = 1 ∧
    ¬ 0 < Real.sin (2 * Real.pi * (2 * (((0 : ℕ) + (0 : ℕ)) * provC.spcmDwellTime))) := by
  constructor
  · have hval := (C2_reference_signal provC 2 0 adcEventC2 [0] 1 0 Nat.zero_lt_one).mpr
    apply hval
    left
    have hr : (2 : ℝ) * ((0 : ℕ) * provC.spcmDwellTime) +
        (0 : ℕ) * provC.spcmDwellTime = 0 := by
      norm_num
    rw [hr]
    norm_num [Real.cos_zero]
  · have hr : (2 : ℝ) * (((0 : ℕ) + (0 : ℕ)) * provC.spcmDwellTime) = 0 := by
      norm_num
    rw [hr]
    norm_num [Real.sin_zero]

/-- C1 (amended): for every RF event accepted by calculate_rf, the RF
sample written into slot 0 at local shape index m equals the int16 cast
of the real part of the resampled scaled envelope multiplied by the
carrier exp(2*pi*i*((f_L + rf.freq_offset)*(m*dwell) +
carrier_phase_offset)), where carrier_phase_offset =
(sample_count + samples_delay - rf_start_sample_pos)*dwell.  The
constant phase term is carrier_phase_offset itself (the elapsed time in
seconds entering the phase directly, in turns), not f_L times
carrier_phase_offset. -/
theorem C1_rf_carrier_phase (P : SequenceProvider) (larmorFreq b1 : ℝ)
    (sampleCount rfStart : ℕ) (rf : RfEvent) (unrollArr unblanking : List ℤ) (m : ℕ)
    (hm : m < rfNumSamples P rf)
    (hok : isOkE (calculate_rf P larmorFreq sampleCount rf unrollArr b1 unblanking rfStart)
      = true) :
    (okValue ([], []) (calculate_rf P larmorFreq sampleCount rf unrollArr b1 unblanking
        rfStart)).1.getD (rfSamplesDelay P rf + m) 0
      = int16OfFloat (((rfResampledEnvelope P rf b1).getD m 0 *
          Complex.exp (2 * (Real.pi : ℂ) * Complex.I *
            (((larmorFreq + rf.freqOffset) * (m * P.spcmDwellTime) +
              carrierPhaseOffset P rf sampleCount rfStart : ℝ) : ℂ))).re) := by
  by_cases hA : 1 < Complex.abs (lexAmax (rfEnvelopeScaled P rf b1))
  · exfalso
    unfold calculate_rf at hok
    rw [if_pos hA] at hok
    simp [isOkE] at hok
  · by_cases hB : unrollArr.length < rfSamplesDelay P rf + rfNumSamples P rf
    · exfalso
      unfold calculate_rf at hok
      rw [if_neg hA] at hok
      rw [if_pos hB] at hok
      simp [isOkE] at hok
    · unfold calculate_rf
      rw [if_neg hA]
      rw [if_neg hB]
      simp only [okValue]
      rw [getD_writeRange _ _ _ _ _ (by omega) (Nat.le_add_right _ _) (by omega)]
      rw [Nat.add_sub_cancel_left]
      rfl

/-- Number of shape samples of the one-sample example RF event. -/
theorem rfNumSamples_C1_eval : rfNumSamples provC rfEventC1 = 1 := by
  unfold rfNumSamples rfEventC1 pyInt truncToZero
  norm_num [spcmFreq, provC]

/-- Sample delay of the one-sample example RF event. -/
theorem rfSamplesDelay_C1_eval : rfSamplesDelay provC rfEventC1 = 0 := by
  unfold rfSamplesDelay rfEventC1 pyInt truncToZero
  norm_num [spcmFreq, provC]

/-- Scaled envelope of the one-sample example RF event. -/
theorem rfEnvelopeScaled_C1_eval :
    rfEnvelopeScaled provC rfEventC1 1 = [((1 : ℝ) : ℂ)] := by
  unfold rfEnvelopeScaled rfEventC1 rfScaling
  norm_num [limit, provC]

/-- The one-sample example RF event passes the checks of calculate_rf. -/
theorem calculate_rf_C1_isOk :
    isOkE (calculate_rf provC (1/4) 1 rfEventC1 [0] 1 [0] 0) = true := by
  unfold calculate_rf
  rw [if_neg ?hA]
  case hA =>
    rw [rfEnvelopeScaled_C1_eval]
    rw [show lexAmax [((1 : ℝ) : ℂ)] = ((1 : ℝ) : ℂ) from rfl]
    rw [Complex.abs_ofReal]
    norm_num
  rw [if_neg ?hB]
  case hB =>
    rw [rfNumSamples_C1_eval, rfSamplesDelay_C1_eval]
    norm_num
  rfl

/-- Witness for C1 on the one-sample example RF event. -/
theorem C1_rf_carrier_phase_witness :
    (0 < rfNumSamples provC rfEventC1 ∧
     isOkE (calculate_rf provC (1/4) 1 rfEventC1 [0] 1 [0] 0) = true) ∧
    (okValue ([], []) (calculate_rf provC (1/4) 1 rfEventC1 [0] 1 [0] 0)).1.getD
        (rfSamplesDelay provC rfEventC1 + 0) 0
      = int16OfFloat (((rfResampledEnvelope provC rfEventC1 1).getD 0 0 *
          Complex.exp (2 * (Real.pi : ℂ) * Complex.I *
            ((((1/4 : ℝ) + rfEventC1.freqOffset) * ((0 : ℕ) * provC.spcmDwellTime) +
              carrierPhaseOffset provC rfEventC1 1 0 : ℝ) : ℂ))).re) :=
  ⟨⟨by rw [rfNumSamples_C1_eval]; norm_num, calculate_rf_C1_isOk⟩,
   C1_rf_carrier_phase provC (1/4) 1 1 0 rfEventC1 [0] [0] 0
     (by rw [rfNumSamples_C1_eval]; norm_num) calculate_rf_C1_isOk⟩

/-- Carrier phase offset of the example event one sample into the run. -/
theorem carrierPhaseOffset_C1_eval : carrierPhaseOffset provC rfEventC1 1 0 = 1 := by
  unfold carrierPhaseOffset
  rw [rfSamplesDelay_C1_eval]
  norm_num [provC]

/-- Resampled scaled envelope of the example event is the single int16
scale sample 32767. -/
theorem rfResampledEnvelope_C1_eval :
    rfResampledEnvelope provC rfEventC1 1 = [((32767 : ℝ) : ℂ)] := by
  unfold rfResampledEnvelope
  rw [rfEnvelopeScaled_C1_eval, rfNumSamples_C1_eval]
  rw [show provC.resample = takeResample from rfl]
  unfold takeResample
  norm_num [INT16_MAX]

/-- Counterexample for C1: with larmor frequency 1/4, unit dwell and a
carrier phase offset of one sample, the sample actually written is
32767 (the code adds carrier_phase_offset directly, and
exp(2*pi*i*1) = 1), while the claimed formula with constant term
f_L * carrier_phase_offset gives exp(pi*i/2) = i and hence the sample 0. -/
theorem C1_rf_carrier_phase_counterexample :
    (okValue ([], []) (calculate_rf provC (1/4) 1 rfEventC1 [0] 1 [0] 0)).1.getD 0 0
      = 32767 ∧
    int16OfFloat (((rfResampledEnvelope provC rfEventC1 1).getD 0 0 *
      Complex.exp (2 * (Real.pi : ℂ) * Complex.I *
        ((((1/4 : ℝ) + rfEventC1.freqOffset) * ((0 : ℕ) * provC.spcmDwellTime) +
          (1/4 : ℝ) * carrierPhaseOffset provC rfEventC1 1 0 : ℝ) : ℂ))).re) = 0 ∧
    (32767 : ℤ) ≠ 0 := by
  refine ⟨?_, ?_, by decide⟩
  · have hmain := C1_rf_carrier_phase provC (1/4) 1 1 0 rfEventC1 [0] [0] 0
      (by rw [rfNumSamples_C1_eval]; norm_num) calculate_rf_C1_isOk
    rw [rfSamplesDelay_C1_eval] at hmain
    rw [hmain]
    rw [rfResampledEnvelope_C1_eval, carrierPhaseOffset_C1_eval]
    simp only [List.getD_cons_zero]
    have harg : (((1/4 : ℝ) + rfEventC1.freqOffset) * ((0 : ℕ) * provC.spcmDwellTime) +
        (1 : ℝ) : ℝ) = 1 := by
      norm_num [rfEventC1]
    rw [harg]
    have hexp : Complex.exp (2 * (Real.pi : ℂ) * Complex.I * ((1 : ℝ) : ℂ)) = 1 := by
      rw [Complex.ofReal_one, mul_one]
      exact Complex.exp_two_pi_mul_I
    rw [hexp, mul_one]
    rw [Complex.ofReal_re]
    unfold int16OfFloat truncToZero
    norm_num
    decide
  · rw [rfResampledEnvelope_C1_eval, carrierPhaseOffset_C1_eval]
    simp only [List.getD_cons_zero]
    have harg : 2 * (Real.pi : ℂ) * Complex.I *
        ((((1/4 : ℝ) + rfEventC1.freqOffset) * ((0 : ℕ) * provC.spcmDwellTime) +
          (1/4 : ℝ) * (1 : ℝ) : ℝ) : ℂ)
        = ((Real.pi / 2 : ℝ) : ℂ) * Complex.I := by
      rw [show rfEventC1.freqOffset = 0 from rfl]
      push_cast
      ring
    rw [harg]
    rw [Complex.mul_re, Complex.ofReal_re, Complex.ofReal_im]
    rw [Complex.exp_ofReal_mul_I_re, Real.cos_pi_div_two]
    norm_num
    unfold int16OfFloat truncToZero
    norm_num
    decide

/-- Membership in the dictionary-key fold: a value is a key exactly when
it is already a key or occurs in the processed list. -/
theorem keysAux_mem : ∀ (l acc : List ℕ) (x : ℕ),
    x ∈ l.foldl (fun a s => if s ∈ a then a else a ++ [s]) acc ↔ x ∈ acc ∨ x ∈ l := by
  intro l
  induction l with
  | nil =>
    intro acc x
    simp
  | cons y ys ih =>
    intro acc x
    rw [List.foldl_cons]
    split_ifs with hy
    · rw [ih]
      constructor
      · rintro (h | h)
        · exact Or.inl h
        · exact Or.inr (List.mem_cons_of_mem _ h)
      · rintro (h | h)
        · exact Or.inl h
        · rcases List.mem_cons.mp h with rfl | h2
          · exact Or.inl hy
          · exact Or.inr h2
    · rw [ih]
      simp only [List.mem_append, List.mem_singleton, List.mem_cons]
      tauto

/-- The dictionary-key fold preserves freedom from duplicates. -/
theorem keysAux_nodup : ∀ (l acc : List ℕ), acc.Nodup →
    (l.foldl (fun a s => if s ∈ a then a else a ++ [s]) acc).Nodup := by
  intro l
  induction l with
  | nil =>
    intro acc h
    simpa using h
  | cons y ys ih =>
    intro acc h
    rw [List.foldl_cons]
    split_ifs with hy
    · exact ih acc h
    · refine ih _ ?_
      rw [List.nodup_append]
      refine ⟨h, List.nodup_singleton y, ?_⟩
      intro a ha hb
      rw [List.mem_singleton] at hb
      subst hb
      exact hy ha

/-- The dictionary-key fold lists keys in order of first occurrence:
relative to the full size list, earlier keys have smaller first index. -/
theorem keysAux_pairwise : ∀ (l pre acc full : List ℕ),
    full = pre ++ l →
    (∀ a ∈ acc, a ∈ pre) → (∀ a ∈ pre, a ∈ acc) →
    List.Pairwise (fun a b => full.indexOf a < full.indexOf b) acc →
    List.Pairwise (fun a b => full.indexOf a < full.indexOf b)
      (l.foldl (fun a s => if s ∈ a then a else a ++ [s]) acc) := by
  intro l
  induction l with
  | nil =>
    intro pre acc full hfull h1 h2 hp
    simpa using hp
  | cons y ys ih =>
    intro pre acc full hfull h1 h2 hp
    rw [List.foldl_cons]
    split_ifs with hy
    · refine ih (pre ++ [y]) acc full (by rw [hfull]; simp) ?_ ?_ hp
      · intro a ha
        exact List.mem_append_left _ (h1 a ha)
      · intro a ha
        rcases List.mem_append.mp ha with h | h
        · exact h2 a h
        · rw [List.mem_singleton] at h
          subst h
          exact hy
    · refine ih (pre ++ [y]) (acc ++ [y]) full (by rw [hfull]; simp) ?_ ?_ ?_
      · intro a ha
        rcases List.mem_append.mp ha with h | h
        · exact List.mem_append_left _ (h1 a h)
        · exact List.mem_append_right _ h
      · intro a ha
        rcases List.mem_append.mp ha with h | h
        · exact List.mem_append_left _ (h2 a h)
        · exact List.mem_append_right _ h
      · rw [List.pairwise_append]
        refine ⟨hp, List.pairwise_singleton _ _, ?_⟩
        intro a ha b hb
        rw [List.mem_singleton] at hb
        have hapre : a ∈ pre := h1 a ha
        have hynp : b ∉ pre := by
          rw [hb]
          exact fun hyp => hy (h2 y hyp)
        rw [hfull, List.indexOf_append_of_mem hapre, List.indexOf_append_of_not_mem hynp]
        have hlt : pre.indexOf a < pre.length := List.indexOf_lt_length.mpr hapre
        omega

/-- Grouping keys are exactly the readout sizes that occur. -/
theorem groupKeys_mem (sizes : List ℕ) (x : ℕ) : x ∈ groupKeys sizes ↔ x ∈ sizes := by
  unfold groupKeys
  rw [keysAux_mem]
  simp

/-- Grouping keys are free of duplicates. -/
theorem groupKeys_nodup (sizes : List ℕ) : (groupKeys sizes).Nodup :=
  keysAux_nodup sizes [] List.nodup_nil

/-- Grouping keys appear in order of their first occurrence in the size
list. -/
theorem groupKeys_firstOccurrence (sizes : List ℕ) :
    List.Pairwise (fun a b => sizes.indexOf a < sizes.indexOf b) (groupKeys sizes) := by
  unfold groupKeys
  exact keysAux_pairwise sizes [] [] sizes (by simp) (by simp) (by simp) List.Pairwise.nil

/-- Entry of a mapped list at an index inside the list. -/
theorem getD_map_lt {α β : Type} (f : α → β) : ∀ (l : List α) (k : ℕ) (dα : α) (dβ : β),
    k < l.length → (l.map f).getD k dβ = f (l.getD k dα) := by
  intro l
  induction l with
  | nil =>
    intro k dα dβ h
    simp at h
  | cons x xs ih =>
    intro k dα dβ h
    cases k with
    | zero => simp
    | succ j => simpa using ih j dα dβ (by simpa using h)

/-- Entry of a list at an index inside the list is a member. -/
theorem getD_mem_of_lt {α : Type} : ∀ (l : List α) (k : ℕ) (d : α),
    k < l.length → l.getD k d ∈ l := by
  intro l
  induction l with
  | nil =>
    intro k d h
    simp at h
  | cons x xs ih =>
    intro k d h
    cases k with
    | zero => simp
    | succ j =>
      simp only [List.getD_cons_succ]
      exact List.mem_cons_of_mem _ (ih j d (by simpa using h))

/-- Head-with-default of a nonempty list is a member. -/
theorem headD_mem_of_ne_nil {α : Type} (l : List α) (d : α) (h : l ≠ []) :
    l.headD d ∈ l := by
  cases l with
  | nil => exact absurd rfl h
  | cons x xs => simp

/-- Entry of a range list. -/
theorem getD_range : ∀ (n i : ℕ), i < n → (List.range n).getD i 0 = i := by
  intro n i h
  rw [List.getD_eq_getElem (List.range n) 0 (by simpa using h)]
  exact List.getElem_range _ _

/-- C8: the DDC grouping step produces exactly one bucket per distinct
readout length, with the keys free of duplicates, covering exactly the
occurring readout lengths, and ordered by first occurrence in the gate
list; every bucket is the stack of its gates along a new phase-encoding
axis, so bucket k has outer length n_coils, each coil entry holds one
row per gate of that readout length (in arrival order), and every row
has the bucket readout length. -/
theorem C8_group_by_readout (gates : List (List (List ℤ))) (nCoils : ℕ)
    (hne : gates ≠ [])
    (hcoils : ∀ g ∈ gates, g.length = nCoils)
    (hrows : ∀ g ∈ gates, ∀ r ∈ g, r.length = gateReadout g) :
    ((postGroupStack gates).length = (groupKeys (gates.map gateReadout)).length ∧
     (groupKeys (gates.map gateReadout)).Nodup ∧
     (∀ s, s ∈ groupKeys (gates.map gateReadout) ↔ s ∈ gates.map gateReadout) ∧
     List.Pairwise
       (fun a b => (gates.map gateReadout).indexOf a < (gates.map gateReadout).indexOf b)
       (groupKeys (gates.map gateReadout))) ∧
    (∀ k, k < (groupKeys (gates.map gateReadout)).length →
      ((postGroupStack gates).getD k []).length = nCoils ∧
      (∀ c, c < nCoils →
        ((((postGroupStack gates).getD k []).getD c []).length =
          (gates.filter
            (fun g => gateReadout g ==
              (groupKeys (gates.map gateReadout)).getD k 0)).length) ∧
        (∀ p, p < (gates.filter
              (fun g => gateReadout g ==
                (groupKeys (gates.map gateReadout)).getD k 0)).length →
          ((((postGroupStack gates).getD k []).getD c []).getD p []).length =
            (groupKeys (gates.map gateReadout)).getD k 0))) := by
  have hglen : (groupedGates gates).length = (groupKeys (gates.map gateReadout)).length := by
    unfold groupedGates
    simp
  have hplen : (postGroupStack gates).length = (groupKeys (gates.map gateReadout)).length := by
    unfold postGroupStack
    simp [hglen]
  refine ⟨⟨hplen, groupKeys_nodup _, fun s => groupKeys_mem _ s,
    groupKeys_firstOccurrence _⟩, ?_⟩
  intro k hk
  have hkey : (groupKeys (gates.map gateReadout)).getD k 0 ∈
      groupKeys (gates.map gateReadout) := getD_mem_of_lt _ k 0 hk
  have hkey2 : (groupKeys (gates.map gateReadout)).getD k 0 ∈ gates.map gateReadout :=
    (groupKeys_mem _ _).mp hkey
  obtain ⟨g0, hg0, hg0r⟩ := List.mem_map.mp hkey2
  have hbucket : (postGroupStack gates).getD k [] =
      stackAxis1 (gates.filter
        (fun g => gateReadout g == (groupKeys (gates.map gateReadout)).getD k 0)) := by
    unfold postGroupStack
    rw [getD_map_lt stackAxis1 _ k [] [] (by rw [hglen]; exact hk)]
    unfold groupedGates
    rw [getD_map_lt _ _ k 0 [] (by simpa using hk)]
  have hg0mem : g0 ∈ gates.filter
      (fun g => gateReadout g == (groupKeys (gates.map gateReadout)).getD k 0) :=
    List.mem_filter.mpr ⟨hg0, by rw [beq_iff_eq]; exact hg0r⟩
  have hgrpne : gates.filter
      (fun g => gateReadout g == (groupKeys (gates.map gateReadout)).getD k 0) ≠ [] :=
    List.ne_nil_of_mem hg0mem
  have hsubgate : ∀ g ∈ gates.filter
      (fun g => gateReadout g == (groupKeys (gates.map gateReadout)).getD k 0),
      g ∈ gates ∧ gateReadout g = (groupKeys (gates.map gateReadout)).getD k 0 := by
    intro g hg
    have := List.mem_filter.mp hg
    exact ⟨this.1, by rw [← beq_iff_eq]; exact this.2⟩
  have hheadlen : ((gates.filter
      (fun g => gateReadout g ==
        (groupKeys (gates.map gateReadout)).getD k 0)).headD []).length = nCoils := by
    have hmem := headD_mem_of_ne_nil _ ([] : List (List ℤ)) hgrpne
    exact hcoils _ (hsubgate _ hmem).1
  have houter : (stackAxis1 (gates.filter
      (fun g => gateReadout g ==
        (groupKeys (gates.map gateReadout)).getD k 0))).length = nCoils := by
    unfold stackAxis1
    simpa using hheadlen
  refine ⟨by rw [hbucket]; exact houter, ?_⟩
  intro c hc
  have hcol : (stackAxis1 (gates.filter
      (fun g => gateReadout g ==
        (groupKeys (gates.map gateReadout)).getD k 0))).getD c [] =
      (gates.filter
        (fun g => gateReadout g ==
          (groupKeys (gates.map gateReadout)).getD k 0)).map (fun g => g.getD c []) := by
    unfold stackAxis1
    rw [getD_map_lt _ _ c 0 [] (by rw [List.length_range, hheadlen]; exact hc)]
    rw [getD_range _ c (by rw [hheadlen]; exact hc)]
  refine ⟨by rw [hbucket, hcol]; simp, ?_⟩
  intro p hp
  rw [hbucket, hcol]
  rw [getD_map_lt _ _ p [] [] hp]
  have hpgate := hsubgate _ (getD_mem_of_lt _ p [] hp)
  have hrowmem : ((gates.filter
      (fun g => gateReadout g ==
        (groupKeys (gates.map gateReadout)).getD k 0)).getD p []).getD c [] ∈
      (gates.filter
        (fun g => gateReadout g ==
          (groupKeys (gates.map gateReadout)).getD k 0)).getD p [] := by
    refine getD_mem_of_lt _ c [] ?_
    rw [hcoils _ hpgate.1]
    exact hc
  have := hrows _ hpgate.1 _ hrowmem
  rw [this, hpgate.2]

/-- Witness for C8 on a three-gate example with readout lengths 2, 1, 2
and one coil. -/
theorem C8_group_by_readout_witness :
    (gatesC8 ≠ [] ∧ (∀ g ∈ gatesC8, g.length = 1) ∧
     (∀ g ∈ gatesC8, ∀ r ∈ g, r.length = gateReadout g)) ∧
    (((postGroupStack gatesC8).length = (groupKeys (gatesC8.map gateReadout)).length ∧
      (groupKeys (gatesC8.map gateReadout)).Nodup ∧
      (∀ s, s ∈ groupKeys (gatesC8.map gateReadout) ↔ s ∈ gatesC8.map gateReadout) ∧
      List.Pairwise
        (fun a b =>
          (gatesC8.map gateReadout).indexOf a < (gatesC8.map gateReadout).indexOf b)
        (groupKeys (gatesC8.map gateReadout))) ∧
     (∀ k, k < (groupKeys (gatesC8.map gateReadout)).length →
       ((postGroupStack gatesC8).getD k []).length = 1 ∧
       (∀ c, c < 1 →
         ((((postGroupStack gatesC8).getD k []).getD c []).length =
           (gatesC8.filter
             (fun g => gateReadout g ==
               (groupKeys (gatesC8.map gateReadout)).getD k 0)).length) ∧
         (∀ p, p < (gatesC8.filter
               (fun g => gateReadout g ==
                 (groupKeys (gatesC8.map gateReadout)).getD k 0)).length →
           ((((postGroupStack gatesC8).getD k []).getD c []).getD p []).length =
             (groupKeys (gatesC8.map gateReadout)).getD k 0)))) :=
  ⟨⟨by decide, by decide, by decide⟩,
   C8_group_by_readout gatesC8 1 (by decide) (by decide) (by decide)⟩

/-- A successful calculate_rf preserves the lengths of the RF channel
view and of the unblanking array. -/
theorem calculate_rf_lengths (P : SequenceProvider) (larmorFreq b1 : ℝ)
    (sampleCount rfStart : ℕ) (rf : RfEvent) (arr ub : List ℤ)
    (pr : List ℤ × List ℤ)
    (h : calculate_rf P larmorFreq sampleCount rf arr b1 ub rfStart = .ok pr) :
    pr.1.length = arr.length ∧ pr.2.length = ub.length := by
  unfold calculate_rf at h
  by_cases hA : 1 < Complex.abs (lexAmax (rfEnvelopeScaled P rf b1))
  · rw [if_pos hA] at h
    exact absurd h (by simp)
  · rw [if_neg hA] at h
    by_cases hB : arr.length < rfSamplesDelay P rf + rfNumSamples P rf
    · rw [if_pos hB] at h
      exact absurd h (by simp)
    · rw [if_neg hB] at h
      rw [Except.ok.injEq] at h
      subst h
      exact ⟨length_writeRange _ _ _ _, length_setRange _ _ _ _⟩

/-- A successful calculate_gradient preserves the length of the channel
view. -/
theorem calculate_gradient_length (P : SequenceProvider) (g : GradEvent)
    (arr : List ℤ) (fov : ℝ) (l2 : List ℤ)
    (h : calculate_gradient P g arr fov = .ok l2) : l2.length = arr.length := by
  unfold calculate_gradient at h
  cases g with
  | trap c d r fl fa amp =>
    simp only [] at h
    split_ifs at h with h1 h2
    rw [Except.ok.injEq] at h
    subst h
    exact length_addRange _ _ _
  | arb c d sd tt wf =>
    simp only [] at h
    split_ifs at h with h1 h2
    rw [Except.ok.injEq] at h
    subst h
    exact length_addRange _ _ _

/-- A successful gradient step preserves the length of the channel
view. -/
theorem gradStep_length (P : SequenceProvider) (g : Option GradEvent)
    (arr : List ℤ) (fov : ℝ) (l2 : List ℤ)
    (h : gradStep P g arr fov = .ok l2) : l2.length = arr.length := by
  cases g with
  | some ev =>
    simp only [gradStep] at h
    exact calculate_gradient_length P ev arr fov l2 h
  | none =>
    simp only [gradStep] at h
    rw [Except.ok.injEq] at h
    subst h
    rfl

/-- The ADC gate step preserves the lengths of the gate and reference
arrays. -/
theorem add_adc_gate_lengths (P : SequenceProvider) (larmorFreq : ℝ)
    (sampleCount : ℕ) (adc : AdcEvent) (gate ref : List ℤ) :
    (add_adc_gate P larmorFreq sampleCount adc gate ref).1.length = gate.length ∧
    (add_adc_gate P larmorFreq sampleCount adc gate ref).2.length = ref.length := by
  unfold add_adc_gate
  exact ⟨length_setRange _ _ _ _, length_mapIdxFrom _ _ _⟩

/-- A successful RF step returns channel and unblanking arrays of the
block length. -/
theorem rfStepF_ok_lengths (P : SequenceProvider) (larmorFreq b1 : ℝ)
    (acc : BlockAcc) (n : ℕ) (orf : Option RfEvent)
    (t : List ℤ × List ℤ × Option ℕ)
    (h : rfStepF P larmorFreq b1 acc n orf = .ok t) :
    t.1.length = n ∧ t.2.1.length = n := by
  unfold rfStepF at h
  cases orf with
  | none =>
    simp only [] at h
    rw [Except.ok.injEq] at h
    subst h
    simp
  | some rf =>
    simp only [] at h
    split_ifs at h with hs
    · rw [Except.ok.injEq] at h
      subst h
      simp
    · cases hcr : calculate_rf P larmorFreq acc.sampleCount rf (List.replicate n 0) b1
          (List.replicate n 0) (acc.rfStartSamplePos.getD acc.sampleCount) with
      | error e =>
        rw [hcr] at h
        simp at h
      | ok pr =>
        rw [hcr] at h
        rw [Except.ok.injEq] at h
        subst h
        have := calculate_rf_lengths P larmorFreq b1 acc.sampleCount
          (acc.rfStartSamplePos.getD acc.sampleCount) rf (List.replicate n 0)
          (List.replicate n 0) pr hcr
        simpa using this

/-- The ADC step returns gate and reference arrays of the block
length. -/
theorem adcStepF_lengths (P : SequenceProvider) (larmorFreq : ℝ)
    (sampleCount n : ℕ) (oadc : Option AdcEvent) :
    (adcStepF P larmorFreq sampleCount n oadc).1.length = n ∧
    (adcStepF P larmorFreq sampleCount n oadc).2.1.length = n := by
  unfold adcStepF
  cases oadc with
  | none => simp
  | some adc =>
    have := add_adc_gate_lengths P larmorFreq sampleCount adc
      (List.replicate n 0) (List.replicate n 0)
    simpa using this

/-- A successful unroll loop iteration appends one interleaved block of
length four times the block sample count and advances the sample
counter by the block sample count. -/
theorem processBlock_ok (P : SequenceProvider) (larmorFreq b1 : ℝ)
    (fov off : Dimensions) (acc : BlockAcc) (b : Block) (acc2 : BlockAcc)
    (h : processBlock P larmorFreq b1 fov off acc b = .ok acc2) :
    (∃ blk, acc2.seqBlocks = acc.seqBlocks ++ [blk] ∧
      blk.length = 4 * nSamples P b) ∧
    acc2.sampleCount = acc.sampleCount + nSamples P b := by
  unfold processBlock at h
  simp only [] at h
  cases hrf : rfStepF P larmorFreq b1 acc (nSamples P b) b.rf with
  | error e =>
    rw [hrf] at h
    simp at h
  | ok t =>
    obtain ⟨ch0, unblankA, rfStart⟩ := t
    have hrfl := rfStepF_ok_lengths P larmorFreq b1 acc (nSamples P b) b.rf _ hrf
    rw [hrf] at h
    cases hg1 : gradStep P b.gx
        (applyGradOffset (List.replicate (nSamples P b) 0) off.x (limit P 1)) fov.x with
    | error e =>
      rw [hg1] at h
      simp at h
    | ok l1g =>
      rw [hg1] at h
      cases hg2 : gradStep P b.gy
          (applyGradOffset (List.replicate (nSamples P b) 0) off.y (limit P 2)) fov.y with
      | error e =>
        rw [hg2] at h
        simp at h
      | ok l2g =>
        rw [hg2] at h
        cases hg3 : gradStep P b.gz
            (applyGradOffset (List.replicate (nSamples P b) 0) off.z (limit P 3)) fov.z with
        | error e =>
          rw [hg3] at h
          simp at h
        | ok l3g =>
          rw [hg3] at h
          rw [Except.ok.injEq] at h
          subst h
          have hadc := adcStepF_lengths P larmorFreq acc.sampleCount (nSamples P b) b.adc
          have hl1 : l1g.length = nSamples P b := by
            rw [gradStep_length P b.gx _ fov.x l1g hg1, length_applyGradOffset]
            simp
          have hl2 : l2g.length = nSamples P b := by
            rw [gradStep_length P b.gy _ fov.y l2g hg2, length_applyGradOffset]
            simp
          have hl3 : l3g.length = nSamples P b := by
            rw [gradStep_length P b.gz _ fov.z l3g hg3, length_applyGradOffset]
            simp
          have hch0 : ch0.length = nSamples P b := hrfl.1
          have hub : unblankA.length = nSamples P b := hrfl.2
          refine ⟨⟨_, rfl, ?_⟩, rfl⟩
          rw [length_interleave4]
          · rw [hch0]
          · rw [List.length_zipWith, hl1, hadc.1, hch0]
            simp
          · rw [List.length_zipWith, hl2, hadc.2, hch0]
            simp
          · rw [List.length_zipWith, hl3, hub, hch0]
            simp

/-- The unroll loop only appends blocks: a successful run over a block
list extends the sequence list by one interleaved array of length four
times the block sample count per block, and adds the total number of
block samples to the running counter. -/
theorem processBlocks_spec (P : SequenceProvider) (larmorFreq b1 : ℝ)
    (fov off : Dimensions) : ∀ (bs : List Block) (acc accF : BlockAcc),
    processBlocks P larmorFreq b1 fov off acc bs = (accF, none) →
    ∃ ext : List (List ℤ),
      accF.seqBlocks = acc.seqBlocks ++ ext ∧
      ext.length = bs.length ∧
      (∀ k, k < bs.length →
        (ext.getD k []).length = 4 * nSamples P (bs.getD k default)) ∧
      accF.sampleCount = acc.sampleCount + (bs.map (fun b => nSamples P b)).sum := by
  intro bs
  induction bs with
  | nil =>
    intro acc accF h
    simp only [processBlocks] at h
    rw [Prod.mk.injEq] at h
    obtain ⟨h1, _⟩ := h
    subst h1
    refine ⟨[], by simp, rfl, ?_, by simp⟩
    intro k hk
    simp at hk
  | cons b bs ih =>
    intro acc accF h
    simp only [processBlocks] at h
    cases hpb : processBlock P larmorFreq b1 fov off acc b with
    | error e =>
      rw [hpb] at h
      simp at h
    | ok acc2 =>
      rw [hpb] at h
      obtain ⟨ext2, hext2, hlen2, hentries2, hcount2⟩ := ih acc2 accF h
      obtain ⟨⟨blk, hblk, hblklen⟩, hcount⟩ :=
        processBlock_ok P larmorFreq b1 fov off acc b acc2 hpb
      refine ⟨blk :: ext2, ?_, by simp [hlen2], ?_, ?_⟩
      · rw [hext2, hblk]
        simp
      · intro k hk
        cases k with
        | zero =>
          simpa using hblklen
        | succ j =>
          simp only [List.getD_cons_succ, List.getD_cons_succ]
          exact hentries2 j (by simpa using hk)
      · rw [hcount2, hcount]
        simp only [List.map_cons, List.sum_cons]
        omega

/-- C9: for every sequence accepted by unroll and every block k, the
interleaved per-block array has length exactly
4 * round(block_duration / dwell) (a length preserved through the
digital packing step, which produced these arrays), and the returned
sample count is the sum over the blocks of
round(block_duration / dwell). -/
theorem C9_unrolled_lengths (P : SequenceProvider) (st : ProviderState)
    (larmorFreq b1 : ℝ) (fov off : Dimensions)
    (hok : isOkE (unroll_sequence P st larmorFreq b1 fov off).2 = true) :
    (okValue default (unroll_sequence P st larmorFreq b1 fov off).2).seq.length
      = P.blocks.length ∧
    (∀ k, k < P.blocks.length →
      ((okValue default (unroll_sequence P st larmorFreq b1 fov off).2).seq.getD k
          []).length = 4 * nSamples P (P.blocks.getD k default)) ∧
    (okValue default (unroll_sequence P st larmorFreq b1 fov off).2).sample_count
      = (P.blocks.map (fun b => nSamples P b)).sum := by
  unfold unroll_sequence at hok ⊢
  by_cases h1 : 10e6 < larmorFreq
  · rw [if_pos h1] at hok
    simp [isOkE] at hok
  · rw [if_neg h1] at hok ⊢
    by_cases h2 : P.blocks.length = 0
    · rw [if_pos h2] at hok
      simp [isOkE] at hok
    · rw [if_neg h2] at hok ⊢
      cases hco : check_offsets P off with
      | error e =>
        simp only [hco] at hok
        simp [isOkE] at hok
      | ok u =>
        simp only [hco] at hok ⊢
        cases hpb : processBlocks P larmorFreq b1 fov off
            ⟨[], [], [], [], 0, 0, none⟩ P.blocks with
        | mk acc oe =>
          cases oe with
          | some e =>
            simp only [hpb] at hok
            simp [isOkE] at hok
          | none =>
            simp only [hpb] at hok ⊢
            obtain ⟨ext, hext, hlen, hentries, hcount⟩ :=
              processBlocks_spec P larmorFreq b1 fov off P.blocks
                ⟨[], [], [], [], 0, 0, none⟩ acc hpb
            simp only [okValue]
            refine ⟨?_, ?_, ?_⟩
            · rw [hext]
              simpa using hlen
            · intro k hk
              rw [hext]
              simpa using hentries k hk
            · simpa using hcount

/-- Witness for C9 on the concrete one-block example run. -/
theorem C9_unrolled_lengths_witness :
    isOkE (unroll_sequence provA stZero 1 1 dimsOne offsetPos).2 = true ∧
    ((okValue default (unroll_sequence provA stZero 1 1 dimsOne offsetPos).2).seq.length
      = provA.blocks.length ∧
    (∀ k, k < provA.blocks.length →
      ((okValue default (unroll_sequence provA stZero 1 1 dimsOne offsetPos).2).seq.getD k
          []).length = 4 * nSamples provA (provA.blocks.getD k default)) ∧
    (okValue default (unroll_sequence provA stZero 1 1 dimsOne offsetPos).2).sample_count
      = (provA.blocks.map (fun b => nSamples provA b)).sum) :=
  ⟨by rw [unrollA_pos_eval]; rfl,
   C9_unrolled_lengths provA stZero 1 1 dimsOne offsetPos
     (by rw [unrollA_pos_eval]; rfl)⟩

end SpectrumConsole
